import Mathlib

/-!
Verification of the hclparser tree-conversion engine (package `convert`).

The engine walks a parsed HCL syntax tree and produces two parallel trees:
a value tree (the JSON-equivalent content) and a line tree (per-key source
positions).  This file gives a shallow embedding of `convert/convert.go`:

* the upstream parser's node types (`hcl.Pos`, `hcl.Range`, the
  `hclsyntax` expression/body/block nodes) are modelled as plain inductive
  types carrying exactly the fields the converter reads;
* Go's `map[string]T` values are modelled as association lists with
  update-or-append assignment (`setKey`) and lookup (`getKey`); a Go
  interface value's dynamic type is modelled by the constructor of
  `VValue` / `LValue` (e.g. `jsonObj`, `map[string]int`,
  `[]jsonObj` and `[]interface` are distinct constructors, because the
  converter distinguishes them with type assertions);
* fallible Go code returns `Except GErr`; a failed unchecked type
  assertion or a write into a nil map (both of which abort the Go process)
  is modelled by the distinguished error `GErr.panic`.

Definitions are translated from the source; theorems about the
specification's claims follow them.
-/

/-- `hcl.Pos`: a source position.  `Line`/`Column` are ordinary Go ints
(the converter stores them into `map[string]int` values), `Byte` is used
only to index the source buffer, so it is modelled as a `Nat`. -/
structure Pos where
  line : Int
  column : Int
  byte : Nat
deriving DecidableEq, Repr

/-- `hcl.Range` with its `Start` and `End` positions (`End` is renamed
`stop`). -/
structure SrcRange where
  start : Pos
  stop : Pos
deriving DecidableEq, Repr

/-- A `cty.Value` as it appears inside `hclsyntax.LiteralValueExpr`.
Only the shapes the converter can meet are modelled: strings, whole
numbers, booleans, null, and a non-primitive (list) value used to
exercise string-coercion failure. -/
inductive CtyValue where
  | str (s : String)
  | num (n : Int)
  | bool (b : Bool)
  | null
  | listVal (vs : List CtyValue)

/-- `ctyconvert.Convert(v, cty.String)` followed by `AsString`: strings
pass through, numbers and booleans render to their decimal / `true`,
`false` forms, anything without a string conversion fails (`none`). -/
def stringCoerce : CtyValue → Option String
  | .str s => some s
  | .num n => some (toString n)
  | .bool b => some (if b then "true" else "false")
  | .null => none
  | .listVal _ => none

/-- A Go error surfaced by the converter.  `panic` marks the places where
the Go code would abort the process: a failed unchecked type assertion or
an assignment into a nil map. -/
inductive GErr where
  | panic
  | err (msg : String)

/-- A value-tree node together with the dynamic Go type it is stored at:
`simple` is a `ctyjson.SimpleJSONValue`, `vstr` a plain `string`, `varr`
a `[]interface` slice, `varrObj` a `[]jsonObj` slice and `vobj` a
`jsonObj` map. -/
inductive VValue where
  | simple (v : CtyValue)
  | vstr (s : String)
  | varr (xs : List VValue)
  | varrObj (xs : List VValue)
  | vobj (fields : List (String × VValue))

/-- A line-tree node with its dynamic Go type: `lint` a bare `int`,
`record` a `map[string]int` positional record, `larr` a `[]interface`
slice, `larrObj` a `[]lineObj` slice and `lobj` a `lineObj`
(`map[string]interface`) map. -/
inductive LValue where
  | lint (n : Int)
  | record (fields : List (String × Int))
  | larr (xs : List LValue)
  | larrObj (xs : List LValue)
  | lobj (fields : List (String × LValue))

/-- Lookup in a Go map modelled as an association list. -/
def getKey {α : Type} : List (String × α) → String → Option α
  | [], _ => none
  | (k', v) :: t, k => if k' = k then some v else getKey t k

/-- Go map assignment `m[k] = v`: replace the existing entry in place, or
append a fresh one. -/
def setKey {α : Type} (k : String) (v : α) : List (String × α) → List (String × α)
  | [] => [(k, v)]
  | (k', v') :: t => if k' = k then (k, v) :: t else (k', v') :: setKey k v t

/-- The keys of a modelled Go map. -/
def keysOf {α : Type} (m : List (String × α)) : List String :=
  m.map Prod.fst

/-- The converter's `Options` record; `Simplify` is carried but unused by
the conversion logic. -/
structure ConvOptions where
  simplify : Bool

/-- The `converter` context: the raw source bytes (modelled as a list of
characters) and the options. -/
structure Converter where
  bytes : List Char
  options : ConvOptions

/-- `converter.rangeSource`: the source text of a byte range, extended by
one byte when the byte just past the range exists and is a closing
parenthesis.  `getD` with the default `' '` is exactly Go's
`end < len(bytes) && bytes[end] == ')'` guard, since the default is not
`')'`. -/
def rangeSource (c : Converter) (r : SrcRange) : String :=
  let e := if c.bytes.getD r.stop.byte ' ' = ')' then r.stop.byte + 1 else r.stop.byte
  ((c.bytes.drop r.start.byte).take (e - r.start.byte)).asString

/-- The `hclsyntax` expression nodes the converter dispatches on.  Each
node carries the one source range the converter reads from it (the
upstream nodes expose `Range()` / `StartRange()`; both are modelled by
`rng`).  `ForExpr` fields the converter never touches are omitted;
`otherExpr` stands for every remaining expression kind, which the
converter treats uniformly through its `default` case. -/
inductive Expr where
  | literal (val : CtyValue) (rng : SrcRange)
  | template (parts : List Expr) (rng : SrcRange)
  | templateWrap (wrapped : Expr) (rng : SrcRange)
  | tuple (exprs : List Expr) (rng : SrcRange)
  | objectCons (items : List (Expr × Expr)) (rng : SrcRange)
  | objectConsKey (wrapped : Expr) (rng : SrcRange)
  | scopeTraversal (rng : SrcRange)
  | conditional (cond trueResult falseResult : Expr) (rng : SrcRange)
  | templateJoin (tup : Expr) (rng : SrcRange)
  | forE (keyVar valVar : String) (collExpr valExpr : Expr) (rng : SrcRange)
  | otherExpr (rng : SrcRange)

/-- The source range an expression node reports. -/
def Expr.rng : Expr → SrcRange
  | .literal _ r => r
  | .template _ r => r
  | .templateWrap _ r => r
  | .tuple _ r => r
  | .objectCons _ r => r
  | .objectConsKey _ r => r
  | .scopeTraversal r => r
  | .conditional _ _ _ r => r
  | .templateJoin _ r => r
  | .forE _ _ _ _ r => r
  | .otherExpr r => r

/-- `converter.wrapExpr`: the expression's source text wrapped in
interpolation markup. -/
def wrapExpr (c : Converter) (e : Expr) : String :=
  "$\x7b" ++ rangeSource c e.rng ++ "\x7d"

/-- The positional record `convertExpression` builds first on every call:
`line`, `startIndex`, `endIndex` from the expression's start range, in
that insertion order. -/
def lineInfoOf (e : Expr) : List (String × Int) :=
  [("line", e.rng.start.line), ("startIndex", e.rng.start.column),
   ("endIndex", e.rng.stop.column)]

/-- `hclsyntax.TemplateExpr.IsStringLiteral`: exactly one part and that
part is a literal value. -/
def isStringLiteral : List Expr → Bool
  | [Expr.literal _ _] => true
  | _ => false

/-- `TemplateExpr.Value(nil)` followed by `AsString`, as exercised under
the `IsStringLiteral` guard: evaluate the single literal part and convert
it to a string; a failed conversion surfaces the diagnostics as an
error. -/
def templateLiteralValue : List Expr → Except GErr String
  | [Expr.literal v _] =>
    match stringCoerce v with
    | some s => .ok s
    | none => .error (.err "template value: convert to string")
  | _ => .error (.err "template value: not a string literal")

theorem exprSizeOfPos (e : Expr) : 0 < sizeOf e := by
  cases e <;> simp

theorem listSizeOfPos {α : Type} [SizeOf α] (l : List α) : 0 < sizeOf l := by
  cases l with
  | nil => simp
  | cons a t => simp


/-- A `jsonObj` (Go `map[string]interface` holding value nodes). -/
abbrev VObj := List (String × VValue)

/-- A `lineObj` (Go `map[string]interface` holding line nodes). -/
abbrev LObj := List (String × LValue)

/-!
Each Go function below is split into one Lean definition per control-flow
join: where the Go code inspects the result of a call (an error check or
a type switch), the model passes that result to a continuation definition
that pattern-matches on it.  This keeps every `match` a top-level match
on constructors while preserving the Go control flow exactly.
-/

/-- Continuation of the tuple element loop: prepend the element to the
rest of the converted list, or propagate the error. -/
def tupleConsCont (elem : VValue) : Except GErr (List VValue) → Except GErr (List VValue)
  | .error e' => .error e'
  | .ok list => .ok (elem :: list)

/-- Continuation of the template part loop: prepend the part's text. -/
def partsAppendCont (s : String) : Except GErr String → Except GErr String
  | .error e' => .error e'
  | .ok srest => .ok (s ++ srest)

/-- Continuation of `convertExpression`'s template case: pair the
template's string with the positional record. -/
def templateValueCont (line : LValue) : Except GErr String → Except GErr (VValue × LValue)
  | .error e' => .error e'
  | .ok s => .ok (.vstr s, line)

/-- Continuation of `convertExpression`'s tuple case: pair the element
list with the positional record. -/
def tupleValueCont (line : LValue) : Except GErr (List VValue) → Except GErr (VValue × LValue)
  | .error e' => .error e'
  | .ok list => .ok (.varr list, line)

/-- Continuation of `convertExpression`'s object case: the per-key value
and line maps are returned as the expression's value and line nodes (the
positional record computed at entry is dropped here). -/
def objectValueCont : Except GErr (VObj × LObj) → Except GErr (VValue × LValue)
  | .error e' => .error e'
  | .ok (m, l) => .ok (.vobj m, .lobj l)

/-- The string assembled by `convertTemplateConditional`. -/
def assembleConditional (c : Converter) (cond : Expr) (trueResult falseResult : String) : String :=
  "%\x7bif " ++ rangeSource c cond.rng ++ "\x7d" ++ trueResult ++
    (if falseResult.length > 0 then "%\x7belse\x7d" ++ falseResult else "") ++
    "%\x7bendif\x7d"

/-- Continuation of `convertTemplateConditional` on the false branch's
result: a reconstruction error from the false branch is never inspected
by the Go code, the branch just contributes the empty string it was
returned alongside. -/
def condFalseCont (c : Converter) (cond : Expr) (trueResult : String) :
    Except GErr String → Except GErr String
  | .ok s => .ok (assembleConditional c cond trueResult s)
  | .error _ => .ok (assembleConditional c cond trueResult "")

/-- Continuation of `convertTemplateFor` on the loop body's result. -/
def forAssembleCont (c : Converter) (keyVar valVar : String) (collExpr : Expr) :
    Except GErr String → Except GErr String
  | .error e' => .error e'
  | .ok templ =>
    .ok ("%\x7bfor " ++ (if keyVar.length > 0 then keyVar ++ ", " else "") ++
      valVar ++ " in " ++ rangeSource c collExpr.rng ++ "\x7d" ++ templ ++
      "%\x7bendfor\x7d")

mutual

/-- `converter.convertExpression`: computes the positional record first,
then dispatches on the expression kind. -/
def convertExpression (c : Converter) (e : Expr) : Except GErr (VValue × LValue) :=
  let line : LValue := .record (lineInfoOf e)
  match e with
  | .literal v _ => .ok (.simple v, line)
  | .template parts _ => templateValueCont line (convertTemplate c parts)
  | .templateWrap w _ => convertExpression c w
  | .tuple exprs _ => tupleValueCont line (convertTupleElems c exprs)
  | .objectCons items _ => objectValueCont (convertObjectItems c items [] [])
  | _ => .ok (.vstr (wrapExpr c e), line)
termination_by (sizeOf e, 1)

/-- The element loop of `convertExpression`'s `TupleConsExpr` case: each
element's own line node is dropped. -/
def convertTupleElems (c : Converter) (es : List Expr) : Except GErr (List VValue) :=
  match es with
  | [] => .ok []
  | ex :: rest => tupleElemCont c rest (convertExpression c ex)
termination_by (sizeOf es, 1)

/-- Continuation of the tuple element loop on one element's result. -/
def tupleElemCont (c : Converter) (rest : List Expr) :
    Except GErr (VValue × LValue) → Except GErr (List VValue)
  | .error e' => .error e'
  | .ok (elem, _) => tupleConsCont elem (convertTupleElems c rest)
termination_by (sizeOf rest, 2)

/-- The item loop of `convertExpression`'s `ObjectConsExpr` case: value
map and line map are filled in lock-step under the converted key. -/
def convertObjectItems (c : Converter) (items : List (Expr × Expr))
    (m : VObj) (l : LObj) : Except GErr (VObj × LObj) :=
  match items with
  | [] => .ok (m, l)
  | (keyExpr, valueExpr) :: rest =>
    objectKeyCont c rest valueExpr m l (convertKey c keyExpr)
termination_by (sizeOf items, 1)

/-- Continuation of the object item loop on the converted key. -/
def objectKeyCont (c : Converter) (rest : List (Expr × Expr)) (valueExpr : Expr)
    (m : VObj) (l : LObj) : Except GErr String → Except GErr (VObj × LObj)
  | .error e' => .error e'
  | .ok key => objectValCont c rest m l key (convertExpression c valueExpr)
termination_by (sizeOf rest + sizeOf valueExpr, 3)
decreasing_by
  all_goals
    (have h1 := listSizeOfPos rest
     have h2 := exprSizeOfPos valueExpr
     omega)

/-- Continuation of the object item loop on the converted value. -/
def objectValCont (c : Converter) (rest : List (Expr × Expr))
    (m : VObj) (l : LObj) (key : String) :
    Except GErr (VValue × LValue) → Except GErr (VObj × LObj)
  | .error e' => .error e'
  | .ok (v, lv) => convertObjectItems c rest (setKey key v m) (setKey key lv l)
termination_by (sizeOf rest, 2)

/-- `converter.convertKey`: a bare scope reference used as an object key
is returned as its literal source text; every other key expression is
assembled as a string part. -/
def convertKey (c : Converter) (keyExpr : Expr) : Except GErr String :=
  match keyExpr with
  | .objectConsKey (.scopeTraversal r) _ => .ok (rangeSource c r)
  | .objectConsKey w _ => convertStringPart c w
  | _ => convertStringPart c keyExpr

/-- `converter.convertTemplate`: a provably-constant string template is
evaluated; otherwise the parts are reconstructed and concatenated. -/
def convertTemplate (c : Converter) (parts : List Expr) : Except GErr String :=
  if isStringLiteral parts then
    templateLiteralValue parts
  else
    convertTemplateParts c parts
termination_by (sizeOf parts, 2)

/-- The part loop of `convertTemplate`'s builder. -/
def convertTemplateParts (c : Converter) (parts : List Expr) : Except GErr String :=
  match parts with
  | [] => .ok ""
  | p :: rest => templatePartCont c rest (convertStringPart c p)
termination_by (sizeOf parts, 1)

/-- Continuation of the template part loop on one part's result. -/
def templatePartCont (c : Converter) (rest : List Expr) :
    Except GErr String → Except GErr String
  | .error e' => .error e'
  | .ok s => partsAppendCont s (convertTemplateParts c rest)
termination_by (sizeOf rest, 2)

/-- `converter.convertStringPart`.  In the `TemplateJoinExpr` case the Go
code asserts `v.Tuple.(*hclsyntax.ForExpr)` without a check, so a
non-`ForExpr` tuple is a panic. -/
def convertStringPart (c : Converter) (e : Expr) : Except GErr String :=
  match e with
  | .literal v _ =>
    match stringCoerce v with
    | some s => .ok s
    | none => .error (.err "convert value to string")
  | .template parts _ => convertTemplate c parts
  | .templateWrap w _ => convertStringPart c w
  | .conditional cond tRes fRes _ => convertTemplateConditional c cond tRes fRes
  | .templateJoin (.forE keyVar valVar collE valE _) _ =>
    convertTemplateForE c keyVar valVar collE valE
  | .templateJoin _ _ => .error .panic
  | _ => .ok (wrapExpr c e)
termination_by (sizeOf e, 1)

/-- `converter.convertTemplateConditional`.  Note the source's handling
of reconstruction errors in the branches: an error from the true branch
is answered with `return "", nil` (the error value is dropped and the
whole conditional reconstructs to the empty string); an error from the
false branch is never inspected. -/
def convertTemplateConditional (c : Converter) (cond tRes fRes : Expr) :
    Except GErr String :=
  match convertStringPart c tRes with
  | .error _ => .ok ""
  | .ok trueResult => condFalseCont c cond trueResult (convertStringPart c fRes)
termination_by (sizeOf cond + sizeOf tRes + sizeOf fRes, 1)
decreasing_by
  all_goals
    (have h1 := exprSizeOfPos cond
     have h2 := exprSizeOfPos fRes
     have h3 := exprSizeOfPos tRes
     omega)

/-- `converter.convertTemplateFor` over the fields of the joined
`ForExpr`. -/
def convertTemplateForE (c : Converter) (keyVar valVar : String)
    (collExpr valExpr : Expr) : Except GErr String :=
  forAssembleCont c keyVar valVar collExpr (convertStringPart c valExpr)
termination_by (sizeOf collExpr + sizeOf valExpr, 1)
decreasing_by
  have h1 := exprSizeOfPos collExpr
  omega

end

/-- An entry of `hclsyntax.Body.Attributes`: the attribute's name, its
expression, and its `NameRange`.  The Go collection is an unordered
`map[string]*Attribute`; a `List Attr` models one iteration order of that
map (the names are unique in a real body). -/
structure Attr where
  name : String
  expr : Expr
  nameRange : SrcRange

mutual
/-- `hclsyntax.Body`: child blocks (in syntactic order), the attribute
collection, and the body's `SrcRange`. -/
inductive Body where
  | mk (blocks : List Block) (attrs : List Attr) (srcRange : SrcRange)
/-- `hclsyntax.Block`: type name, ordered labels, child body, and the
`TypeRange` of the type name. -/
inductive Block where
  | mk (btype : String) (labels : List String) (body : Body) (typeRange : SrcRange)
end

/-- The type name of a block. -/
def Block.btype : Block → String
  | .mk t _ _ _ => t

/-- The labels of a block. -/
def Block.labels : Block → List String
  | .mk _ ls _ _ => ls

/-- The child body of a block. -/
def Block.body : Block → Body
  | .mk _ _ b _ => b

/-- The type-name range of a block. -/
def Block.typeRange : Block → SrcRange
  | .mk _ _ _ tr => tr

/-- The `__key__*` annotation of an attribute's line entry
(`convertBody`'s attribute loop): only a positional record
(`map[string]int`) is annotated, with the attribute name's range.  The
loop's second probe, for a `map[string]map[string]interface` value, can
never fire because `convertExpression` produces no value of that dynamic
type, so every non-record line entry is left untouched. -/
def annotateAttrLine (nameRange : SrcRange) (line : LValue) : LValue :=
  match line with
  | .record fields =>
    .record (setKey "__key__line" nameRange.start.line
      (setKey "__key__endIndex" nameRange.stop.column
        (setKey "__key__startIndex" nameRange.start.column fields)))
  | other => other

mutual

/-- The attribute loop of `convertBody`: convert each attribute's
expression, store value and line entry under the attribute name, and
annotate a record-shaped line entry with the name's range.  Go iterates
the attribute map in unspecified order; the `attrs` list fixes one
order. -/
def convertAttrs (c : Converter) (attrs : List Attr)
    (cfg : VObj) (lcfg : LObj) : Except GErr (VObj × LObj) :=
  match attrs with
  | [] => .ok (cfg, lcfg)
  | a :: rest =>
    attrExprCont c rest a.name a.nameRange cfg lcfg (convertExpression c a.expr)
termination_by (sizeOf attrs, 1)

/-- Continuation of the attribute loop on one attribute's expression
result. -/
def attrExprCont (c : Converter) (rest : List Attr) (name : String)
    (nameRange : SrcRange) (cfg : VObj) (lcfg : LObj) :
    Except GErr (VValue × LValue) → Except GErr (VObj × LObj)
  | .error e' => .error e'
  | .ok (v, lv) =>
    convertAttrs c rest (setKey name v cfg)
      (setKey name (annotateAttrLine nameRange lv) lcfg)
termination_by (sizeOf rest, 2)

end

/-- The `__key__*` annotation `convertBlock` writes onto a converted
body's line map, from the block's type-name range. -/
def annotBlockLine (typeRange : SrcRange) (m : LObj) : LObj :=
  setKey "__key__line" (.lint typeRange.start.line)
    (setKey "__key__endIndex" (.lint typeRange.stop.column)
      (setKey "__key__startIndex" (.lint typeRange.start.column) m))

/-- The value-side Collision Merge of `convertBlock` (source lines
207-215): bare on first occurrence, append when the entry already is a
`[]interface` slice, otherwise wrap the two values in a fresh slice. -/
def mergeEntry (key : String) (newV : VValue) (cfg : VObj) : VObj :=
  match getKey cfg key with
  | none => setKey key newV cfg
  | some (.varr xs) => setKey key (.varr (xs ++ [newV])) cfg
  | some cur => setKey key (.varr [cur, newV]) cfg

/-- The line-side Collision Merge of `convertBlock` (source lines
218-226), in lock-step with `mergeEntry`. -/
def mergeLineEntry (key : String) (newL : LValue) (lcfg : LObj) : LObj :=
  match getKey lcfg key with
  | none => setKey key newL lcfg
  | some (.larr xs) => setKey key (.larr (xs ++ [newL])) lcfg
  | some cur => setKey key (.larr [cur, newL]) lcfg

/-- Continuation of `convertBlock` after the label walk, on the converted
body of the block.  Go annotates the returned line map with the
`__key__*` fields *before* checking the body error, so a failed body
conversion writes into the returned nil maps and panics; on success the
annotated maps are merged at the final key with the Collision Merge. -/
def blockBodyCont (key : String) (typeRange : SrcRange)
    (cfg : VObj) (lcfg : LObj) : Except GErr (VObj × LObj) → Except GErr (VObj × LObj)
  | .error _ => .error .panic
  | .ok (value, blcfg0) =>
    .ok (mergeEntry key (.vobj value) cfg,
         mergeLineEntry key (.lobj (annotBlockLine typeRange blcfg0)) lcfg)

/-- Writing the updated nested maps back under the current key after a
label-walk descent (Go mutates the nested maps through aliases; the
model re-installs them). -/
def blockWriteBack (key : String) (cfg : VObj) (lcfg : LObj) :
    Except GErr (VObj × LObj) → Except GErr (VObj × LObj)
  | .error e' => .error e'
  | .ok (inner', linner') =>
    .ok (setKey key (.vobj inner') cfg, setKey key (.lobj linner') lcfg)

/-- Continuation of `convertBody`'s attribute phase: after blocks and
attributes, the line map gains the body's own `line`, `startIndex`,
`endIndex` fields. -/
def bodyFinishCont (srcRange : SrcRange) :
    Except GErr (VObj × LObj) → Except GErr (VObj × LObj)
  | .error e' => .error e'
  | .ok (cfg', lcfg') =>
    .ok (cfg',
      setKey "endIndex" (.lint srcRange.stop.column)
        (setKey "startIndex" (.lint srcRange.start.column)
          (setKey "line" (.lint srcRange.start.line) lcfg')))

/-- Continuation of `convertBody` on the block phase's result. -/
def bodyBlocksCont (c : Converter) (attrs : List Attr) (srcRange : SrcRange) :
    Except GErr (VObj × LObj) → Except GErr (VObj × LObj)
  | .error e' => .error e'
  | .ok (cfg, lcfg) => bodyFinishCont srcRange (convertAttrs c attrs cfg lcfg)

theorem blockSizeOfPos (blk : Block) : 0 < sizeOf blk := by
  cases blk; simp

mutual

/-- `converter.convertBody`: blocks first, then attributes, then the
body's own `line` / `startIndex` / `endIndex` fields on the line map. -/
def convertBody (c : Converter) (b : Body) : Except GErr (VObj × LObj) :=
  match b with
  | .mk blocks attrs srcRange =>
    bodyBlocksCont c attrs srcRange (convertBlocks c blocks [] [])
termination_by (sizeOf b, 1)

/-- The block loop of `convertBody`: each block is converted into fresh
maps, the entry under the block's type is extracted with unchecked type
assertions (`jsonObj` / `lineObj`; a mismatch is a panic) and merged into
the accumulating maps: the first occurrence of a type stores a
one-element `[]jsonObj` / `[]lineObj` slice, later occurrences append
(after unchecked re-assertions of the stored slices). -/
def convertBlocks (c : Converter) (bs : List Block)
    (cfg : VObj) (lcfg : LObj) : Except GErr (VObj × LObj) :=
  match bs with
  | [] => .ok (cfg, lcfg)
  | blk :: rest => blocksStepCont c blk rest cfg lcfg (convertBlock c blk [] [])
termination_by (sizeOf bs, 0)

/-- Continuation of the block loop on one block's conversion result:
extract the `jsonObj` / `lineObj` stored under the block's type name. -/
def blocksStepCont (c : Converter) (blk : Block) (rest : List Block)
    (cfg : VObj) (lcfg : LObj) :
    Except GErr (VObj × LObj) → Except GErr (VObj × LObj)
  | .error e' => .error e'
  | .ok (bcfg, blcfg) =>
    blocksExtractCont c blk rest cfg lcfg
      (getKey bcfg blk.btype) (getKey blcfg blk.btype)
termination_by (sizeOf blk + sizeOf rest, 4)

/-- The unchecked type assertions `bcfg[block.Type].(jsonObj)` and
`blcfg[block.Type].(lineObj)` of the block loop. -/
def blocksExtractCont (c : Converter) (blk : Block) (rest : List Block)
    (cfg : VObj) (lcfg : LObj) :
    Option VValue → Option LValue → Except GErr (VObj × LObj)
  | some (.vobj blockConfig), some (.lobj lineCfg) =>
    blocksMergeCont c blk rest cfg lcfg blockConfig lineCfg (getKey cfg blk.btype)
  | _, _ => .error .panic
termination_by (sizeOf blk + sizeOf rest, 3)

/-- The presence check `cfg[block.Type]` of the block loop: a first
occurrence stores fresh one-element slices, otherwise append. -/
def blocksMergeCont (c : Converter) (blk : Block) (rest : List Block)
    (cfg : VObj) (lcfg : LObj) (blockConfig : VObj) (lineCfg : LObj) :
    Option VValue → Except GErr (VObj × LObj)
  | none =>
    convertBlocks c rest
      (setKey blk.btype (.varrObj [.vobj blockConfig]) cfg)
      (setKey blk.btype (.larrObj [.lobj lineCfg]) lcfg)
  | some cur =>
    blocksAppendCont c blk rest cfg lcfg blockConfig lineCfg cur
      (getKey lcfg blk.btype)
termination_by (sizeOf blk + sizeOf rest, 2)
decreasing_by
  · have h1 := blockSizeOfPos blk
    omega
  · omega

/-- The unchecked slice re-assertions (`[]jsonObj` / `[]lineObj`) and
append of the block loop's collision case. -/
def blocksAppendCont (c : Converter) (blk : Block) (rest : List Block)
    (cfg : VObj) (lcfg : LObj) (blockConfig : VObj) (lineCfg : LObj) :
    VValue → Option LValue → Except GErr (VObj × LObj)
  | .varrObj list, some (.larrObj lineList) =>
    convertBlocks c rest
      (setKey blk.btype (.varrObj (list ++ [.vobj blockConfig])) cfg)
      (setKey blk.btype (.larrObj (lineList ++ [.lobj lineCfg])) lcfg)
  | _, _ => .error .panic
termination_by (sizeOf blk + sizeOf rest, 1)
decreasing_by
  have h1 := blockSizeOfPos blk
  omega

/-- `converter.convertBlock`: starts the label walk at the block's type
name. -/
def convertBlock (c : Converter) (blk : Block)
    (cfg : VObj) (lcfg : LObj) : Except GErr (VObj × LObj) :=
  match blk with
  | .mk btype labels body typeRange =>
    convertBlockAux c btype labels body typeRange cfg lcfg
termination_by (sizeOf blk, 0)

/-- The label loop and final merge of `convertBlock`.  For each label the
walk looks up the current key and either descends into an existing entry
or installs a fresh nested map; after the labels, the block's body is
converted and merged at the final key. -/
def convertBlockAux (c : Converter) (key : String) (labels : List String)
    (body : Body) (typeRange : SrcRange)
    (cfg : VObj) (lcfg : LObj) : Except GErr (VObj × LObj) :=
  match labels with
  | label :: rest =>
    blockDescendCont c key label rest body typeRange cfg lcfg (getKey cfg key)
  | [] => blockBodyCont key typeRange cfg lcfg (convertBody c body)
termination_by (sizeOf labels + sizeOf body, 5)
decreasing_by
  all_goals (simp; omega)

/-- The label walk's case split on the current entry: descend into an
existing `jsonObj` (anything else is the structural-conflict error), or
recurse into fresh maps and install the result. -/
def blockDescendCont (c : Converter) (key label : String) (rest : List String)
    (body : Body) (typeRange : SrcRange) (cfg : VObj) (lcfg : LObj) :
    Option VValue → Except GErr (VObj × LObj)
  | some (.vobj inner) =>
    blockDescendLineCont c key label rest body typeRange cfg lcfg inner
      (getKey lcfg key)
  | some _ => .error (.err "Unable to convert Block to JSON")
  | none =>
    blockWriteBack key cfg lcfg
      (convertBlockAux c label rest body typeRange [] [])
termination_by (sizeOf rest + sizeOf body, 7)

/-- The label walk's line-side assertion: the line entry under the
current key must itself be a `lineObj`. -/
def blockDescendLineCont (c : Converter) (key label : String) (rest : List String)
    (body : Body) (typeRange : SrcRange) (cfg : VObj) (lcfg : LObj)
    (inner : VObj) : Option LValue → Except GErr (VObj × LObj)
  | some (.lobj linner) =>
    blockWriteBack key cfg lcfg
      (convertBlockAux c label rest body typeRange inner linner)
  | _ => .error (.err "unable to convert Block to JSON")
termination_by (sizeOf rest + sizeOf body, 6)

end

/-! ### Basic lemmas about the Go-map model -/

theorem getKey_nil {α : Type} (k : String) : getKey ([] : List (String × α)) k = none := rfl

theorem setKey_nil {α : Type} (k : String) (v : α) : setKey k v [] = [(k, v)] := rfl

theorem getKey_setKey_self {α : Type} (k : String) (v : α) (m : List (String × α)) :
    getKey (setKey k v m) k = some v := by
  induction m with
  | nil => simp [setKey, getKey]
  | cons p t ih =>
    by_cases h : p.1 = k
    · cases p; simp_all [setKey, getKey]
    · cases p; simp_all [setKey, getKey]

theorem getKey_setKey_ne {α : Type} (k k' : String) (v : α) (m : List (String × α))
    (h : k' ≠ k) : getKey (setKey k v m) k' = getKey m k' := by
  induction m with
  | nil => simp [setKey, getKey, Ne.symm h]
  | cons p t ih =>
    cases p with
    | mk pk pv =>
      by_cases hp : pk = k
      · subst hp
        simp [setKey, getKey, Ne.symm h]
      · simp [setKey, getKey, hp]
        by_cases hp' : pk = k'
        · simp [hp']
        · simp [hp', ih]

theorem keysOf_cons {α : Type} (p : String × α) (t : List (String × α)) :
    keysOf (p :: t) = p.1 :: keysOf t := rfl

theorem keysOf_setKey_mem {α : Type} {k : String} (v : α) {m : List (String × α)}
    (h : k ∈ keysOf m) : keysOf (setKey k v m) = keysOf m := by
  induction m with
  | nil => simp [keysOf] at h
  | cons p t ih =>
    rw [keysOf_cons, List.mem_cons] at h
    cases p with
    | mk pk pv =>
      by_cases hp : pk = k
      · subst hp
        simp [setKey, keysOf]
      · have h' : k ∈ keysOf t := by
          cases h with
          | inl he => exact absurd he.symm hp
          | inr ht => exact ht
        simp only [setKey, if_neg hp]
        rw [keysOf_cons, keysOf_cons, ih h']

theorem keysOf_setKey_not_mem {α : Type} {k : String} (v : α) {m : List (String × α)}
    (h : k ∉ keysOf m) : keysOf (setKey k v m) = keysOf m ++ [k] := by
  induction m with
  | nil => simp [setKey, keysOf]
  | cons p t ih =>
    rw [keysOf_cons, List.mem_cons] at h
    push_neg at h
    cases p with
    | mk pk pv =>
      have hp : pk ≠ k := fun he => h.1 he.symm
      simp only [setKey, if_neg hp]
      rw [keysOf_cons, keysOf_cons, ih h.2]
      rfl

theorem getKey_eq_none_of_not_mem {α : Type} {k : String} {m : List (String × α)}
    (h : k ∉ keysOf m) : getKey m k = none := by
  induction m with
  | nil => rfl
  | cons p t ih =>
    rw [keysOf_cons, List.mem_cons] at h
    push_neg at h
    cases p with
    | mk pk pv =>
      have hp : pk ≠ k := fun he => h.1 he.symm
      simp only [getKey, if_neg hp]
      exact ih h.2

theorem mem_keysOf_of_getKey {α : Type} {k : String} {m : List (String × α)} {v : α}
    (h : getKey m k = some v) : k ∈ keysOf m := by
  induction m with
  | nil => simp [getKey] at h
  | cons p t ih =>
    cases p with
    | mk pk pv =>
      rw [keysOf_cons, List.mem_cons]
      by_cases hp : pk = k
      · exact Or.inl hp.symm
      · simp only [getKey, if_neg hp] at h
        exact Or.inr (ih h)

/-! ### The label walk on fresh maps

`convertBody`'s block loop always hands `convertBlock` freshly created
empty maps, so the label walk of `convertBlockAux` only ever takes the
key-not-present branch: it builds a chain of singleton nested objects
ending in the converted body.  `chainV` / `chainL` describe that chain.
-/

/-- The nested-object chain built for a label list, value side. -/
def chainV (labels : List String) (m : VObj) : VValue :=
  match labels with
  | [] => .vobj m
  | l :: rest => .vobj [(l, chainV rest m)]

/-- The nested-object chain built for a label list, line side. -/
def chainL (labels : List String) (m : LObj) : LValue :=
  match labels with
  | [] => .lobj m
  | l :: rest => .lobj [(l, chainL rest m)]

theorem convertBlockAux_fresh_err {c : Converter} {body : Body} {e : GErr}
    (key : String) (labels : List String) (tr : SrcRange)
    (h : convertBody c body = .error e) :
    convertBlockAux c key labels body tr [] [] = .error .panic := by
  induction labels generalizing key with
  | nil =>
    rw [convertBlockAux, h]
    rfl
  | cons label rest ih =>
    rw [convertBlockAux]
    simp only [getKey_nil]
    rw [blockDescendCont, ih label]
    rfl

theorem convertBlockAux_fresh_ok {c : Converter} {body : Body}
    {value : VObj} {blcfg0 : LObj}
    (key : String) (labels : List String) (tr : SrcRange)
    (h : convertBody c body = .ok (value, blcfg0)) :
    convertBlockAux c key labels body tr [] [] =
      .ok ([(key, chainV labels value)],
           [(key, chainL labels (annotBlockLine tr blcfg0))]) := by
  induction labels generalizing key with
  | nil =>
    rw [convertBlockAux, h]
    simp [blockBodyCont, mergeEntry, mergeLineEntry, getKey, setKey, chainV, chainL]
  | cons label rest ih =>
    rw [convertBlockAux]
    simp only [getKey_nil]
    rw [blockDescendCont, ih label]
    simp [blockWriteBack, setKey, chainV, chainL]

/-- `convertBlock` on fresh maps is the label walk started at the type
name. -/
theorem convertBlock_fresh (c : Converter) (blk : Block) :
    convertBlock c blk [] [] =
      convertBlockAux c blk.btype blk.labels blk.body blk.typeRange [] [] := by
  cases blk
  rw [convertBlock]
  rfl

/-- The fields of the label chain (the map stored under the block's type
key). -/
def chainVFields (labels : List String) (m : VObj) : VObj :=
  match labels with
  | [] => m
  | l :: rest => [(l, chainV rest m)]

/-- Line-side fields of the label chain. -/
def chainLFields (labels : List String) (m : LObj) : LObj :=
  match labels with
  | [] => m
  | l :: rest => [(l, chainL rest m)]

theorem chainV_eq (labels : List String) (m : VObj) :
    chainV labels m = .vobj (chainVFields labels m) := by
  cases labels <;> rfl

theorem chainL_eq (labels : List String) (m : LObj) :
    chainL labels m = .lobj (chainLFields labels m) := by
  cases labels <;> rfl

/-- The `jsonObj` that `convertBlock` (on fresh maps) leaves under the
block's type key, when the block's body converts. -/
def blockValueObj (c : Converter) (blk : Block) : Option VObj :=
  match convertBody c blk.body with
  | .ok (value, _) => some (chainVFields blk.labels value)
  | .error _ => none

/-- The `lineObj` that `convertBlock` (on fresh maps) leaves under the
block's type key, when the block's body converts. -/
def blockLineObj (c : Converter) (blk : Block) : Option LObj :=
  match convertBody c blk.body with
  | .ok (_, blcfg0) => some (chainLFields blk.labels (annotBlockLine blk.typeRange blcfg0))
  | .error _ => none

/-- Keys the block loop never writes are left unchanged. -/
theorem convertBlocks_getKey_of_no_block (c : Converter) :
    ∀ (bs : List Block) (cfg : VObj) (lcfg : LObj) (cfg' : VObj) (lcfg' : LObj)
    (t : String),
    convertBlocks c bs cfg lcfg = .ok (cfg', lcfg') →
    (∀ b ∈ bs, b.btype ≠ t) →
    getKey cfg' t = getKey cfg t ∧ getKey lcfg' t = getKey lcfg t := by
  intro bs
  induction bs with
  | nil =>
    intro cfg lcfg cfg' lcfg' t hok _
    rw [convertBlocks] at hok
    cases hok
    exact ⟨rfl, rfl⟩
  | cons blk rest ih =>
    intro cfg lcfg cfg' lcfg' t hok hne
    have hblk : blk.btype ≠ t := hne blk (by simp)
    have hrest : ∀ b ∈ rest, b.btype ≠ t := fun b hb => hne b (by simp [hb])
    rw [convertBlocks] at hok
    cases hcb : convertBlock c blk [] [] with
    | error e =>
      rw [hcb] at hok
      simp only [blocksStepCont] at hok
      exact Except.noConfusion hok
    | ok p =>
      cases p with
      | mk bcfg blcfg =>
        rw [hcb] at hok
        simp only [blocksStepCont] at hok
        cases hv : getKey bcfg blk.btype <;> rw [hv] at hok
        case none =>
          cases hl : getKey blcfg blk.btype <;> rw [hl] at hok <;>
            simp only [blocksExtractCont] at hok <;> exact Except.noConfusion hok
        case some vv =>
          cases hl : getKey blcfg blk.btype <;> rw [hl] at hok
          case none =>
            cases vv <;> simp only [blocksExtractCont] at hok <;>
              exact Except.noConfusion hok
          case some lv =>
            cases vv <;> cases lv <;> simp only [blocksExtractCont] at hok
            all_goals try exact Except.noConfusion hok
            rename_i blockConfig lineCfg
            cases hacc : getKey cfg blk.btype <;> rw [hacc] at hok <;>
              simp only [blocksMergeCont] at hok
            case none =>
              have h2 := ih _ _ _ _ t hok hrest
              rwa [getKey_setKey_ne _ _ _ _ (Ne.symm hblk),
                getKey_setKey_ne _ _ _ _ (Ne.symm hblk)] at h2
            case some cur =>
              cases hlacc : getKey lcfg blk.btype <;> rw [hlacc] at hok
              case none =>
                cases cur <;> simp only [blocksAppendCont] at hok <;>
                  exact Except.noConfusion hok
              case some lcur =>
                cases cur <;> cases lcur <;> simp only [blocksAppendCont] at hok
                all_goals try exact Except.noConfusion hok
                have h2 := ih _ _ _ _ t hok hrest
                rwa [getKey_setKey_ne _ _ _ _ (Ne.symm hblk),
                  getKey_setKey_ne _ _ _ _ (Ne.symm hblk)] at h2

/-- One successful iteration of the block loop, characterized: the
block's body converted, its chain was extracted under the type key, and
the loop continued with either a fresh one-element slice or an append. -/
theorem convertBlocks_cons_ok (c : Converter) (blk : Block) (rest : List Block)
    (cfg : VObj) (lcfg : LObj) (out : VObj × LObj)
    (hok : convertBlocks c (blk :: rest) cfg lcfg = .ok out) :
    ∃ bc lc, blockValueObj c blk = some bc ∧ blockLineObj c blk = some lc ∧
    ((getKey cfg blk.btype = none ∧
      convertBlocks c rest (setKey blk.btype (.varrObj [.vobj bc]) cfg)
        (setKey blk.btype (.larrObj [.lobj lc]) lcfg) = .ok out) ∨
     (∃ xs ys, getKey cfg blk.btype = some (.varrObj xs) ∧
       getKey lcfg blk.btype = some (.larrObj ys) ∧
       convertBlocks c rest (setKey blk.btype (.varrObj (xs ++ [.vobj bc])) cfg)
         (setKey blk.btype (.larrObj (ys ++ [.lobj lc])) lcfg) = .ok out)) := by
  rw [convertBlocks, convertBlock_fresh] at hok
  cases hbody : convertBody c blk.body with
  | error e =>
    rw [convertBlockAux_fresh_err _ _ _ hbody] at hok
    simp only [blocksStepCont] at hok
    exact Except.noConfusion hok
  | ok p =>
    cases p with
    | mk value blcfg0 =>
      rw [convertBlockAux_fresh_ok _ _ _ hbody] at hok
      simp only [blocksStepCont] at hok
      rw [show getKey [(blk.btype, chainV blk.labels value)] blk.btype =
            some (chainV blk.labels value) by simp [getKey],
          show getKey [(blk.btype,
              chainL blk.labels (annotBlockLine blk.typeRange blcfg0))] blk.btype =
            some (chainL blk.labels (annotBlockLine blk.typeRange blcfg0)) by
              simp [getKey],
          chainV_eq, chainL_eq] at hok
      simp only [blocksExtractCont] at hok
      refine ⟨chainVFields blk.labels value,
        chainLFields blk.labels (annotBlockLine blk.typeRange blcfg0),
        by simp [blockValueObj, hbody], by simp [blockLineObj, hbody], ?_⟩
      cases hacc : getKey cfg blk.btype <;> rw [hacc] at hok <;>
        simp only [blocksMergeCont] at hok
      case none => exact Or.inl ⟨rfl, hok⟩
      case some cur =>
        cases hlacc : getKey lcfg blk.btype <;> rw [hlacc] at hok
        case none =>
          cases cur <;> simp only [blocksAppendCont] at hok <;>
            exact Except.noConfusion hok
        case some lcur =>
          cases cur <;> cases lcur <;> simp only [blocksAppendCont] at hok
          all_goals try exact Except.noConfusion hok
          rename_i xs ys
          exact Or.inr ⟨xs, ys, rfl, rfl, hok⟩

/-- Full characterization of the block loop: under the lock-step
accumulator invariant, the entry at a type key `t` after the loop is the
accumulated slice extended by the converted chains of the `t`-typed
blocks, in syntactic order; a type with no block and no accumulated entry
stays absent. -/
theorem convertBlocks_char_aux (c : Converter) :
    ∀ (bs : List Block) (cfg : VObj) (lcfg : LObj) (out : VObj × LObj),
    convertBlocks c bs cfg lcfg = .ok out →
    ∀ (t : String) (vs : List VValue) (ls : List LValue),
    ((getKey cfg t = some (.varrObj vs) ∧ getKey lcfg t = some (.larrObj ls)) ∨
     (getKey cfg t = none ∧ getKey lcfg t = none ∧ vs = [] ∧ ls = [])) →
    ∃ ps : List (VObj × LObj),
      List.Forall₂ (fun (b : Block) (p : VObj × LObj) =>
        blockValueObj c b = some p.1 ∧ blockLineObj c b = some p.2)
        (bs.filter (fun b => b.btype == t)) ps ∧
      ((getKey out.1 t = some (.varrObj (vs ++ ps.map (fun p => VValue.vobj p.1))) ∧
        getKey out.2 t = some (.larrObj (ls ++ ps.map (fun p => LValue.lobj p.2)))) ∨
       (getKey out.1 t = none ∧ getKey out.2 t = none ∧ vs = [] ∧ ps = [])) := by
  intro bs
  induction bs with
  | nil =>
    intro cfg lcfg out hok t vs ls hinv
    rw [convertBlocks] at hok
    cases hok
    refine ⟨[], by simp, ?_⟩
    cases hinv with
    | inl h => exact Or.inl ⟨by simp [h.1], by simp [h.2]⟩
    | inr h => exact Or.inr ⟨h.1, h.2.1, h.2.2.1, rfl⟩
  | cons blk rest ih =>
    intro cfg lcfg out hok t vs ls hinv
    obtain ⟨bc, lc, hbc, hlc, hcase⟩ := convertBlocks_cons_ok c blk rest cfg lcfg out hok
    by_cases ht : blk.btype = t
    · subst ht
      have hfilter : (blk :: rest).filter (fun b => b.btype == blk.btype) =
          blk :: rest.filter (fun b => b.btype == blk.btype) := by
        simp [List.filter_cons]
      cases hcase with
      | inl hfresh =>
        obtain ⟨hacc, hrec⟩ := hfresh
        have hinv' : vs = [] ∧ ls = [] ∧ getKey lcfg blk.btype = none := by
          cases hinv with
          | inl h => rw [h.1] at hacc; exact Option.noConfusion hacc
          | inr h => exact ⟨h.2.2.1, h.2.2.2, h.2.1⟩
        obtain ⟨hvs, hls, hlacc⟩ := hinv'
        subst hvs; subst hls
        have ih' := ih _ _ _ hrec blk.btype [.vobj bc] [.lobj lc]
          (Or.inl ⟨getKey_setKey_self _ _ _, getKey_setKey_self _ _ _⟩)
        obtain ⟨ps, hps, hout⟩ := ih'
        refine ⟨(bc, lc) :: ps, ?_, ?_⟩
        · rw [hfilter]
          exact List.Forall₂.cons ⟨hbc, hlc⟩ hps
        · cases hout with
          | inl h => exact Or.inl ⟨by simpa using h.1, by simpa using h.2⟩
          | inr h => exact absurd h.2.2.1 (by simp)
      | inr happ =>
        obtain ⟨xs, ys, hxs, hys, hrec⟩ := happ
        have hinv' : vs = xs ∧ ls = ys := by
          cases hinv with
          | inl h =>
            rw [h.1] at hxs
            rw [h.2] at hys
            have h1 : VValue.varrObj vs = VValue.varrObj xs := Option.some.inj hxs
            have h2 : LValue.larrObj ls = LValue.larrObj ys := Option.some.inj hys
            simp only [VValue.varrObj.injEq] at h1
            simp only [LValue.larrObj.injEq] at h2
            exact ⟨h1, h2⟩
          | inr h => rw [h.1] at hxs; exact Option.noConfusion hxs
        obtain ⟨hvs, hls⟩ := hinv'
        subst hvs; subst hls
        have ih' := ih _ _ _ hrec blk.btype (vs ++ [.vobj bc]) (ls ++ [.lobj lc])
          (Or.inl ⟨getKey_setKey_self _ _ _, getKey_setKey_self _ _ _⟩)
        obtain ⟨ps, hps, hout⟩ := ih'
        refine ⟨(bc, lc) :: ps, ?_, ?_⟩
        · rw [hfilter]
          exact List.Forall₂.cons ⟨hbc, hlc⟩ hps
        · cases hout with
          | inl h => exact Or.inl ⟨by simpa using h.1, by simpa using h.2⟩
          | inr h => exact absurd h.2.2.1 (by simp)
    · have hfilter : (blk :: rest).filter (fun b => b.btype == t) =
          rest.filter (fun b => b.btype == t) := by
        simp [List.filter_cons, ht]
      cases hcase with
      | inl hfresh =>
        obtain ⟨hacc, hrec⟩ := hfresh
        have ih' := ih _ _ _ hrec t vs ls ?_
        · obtain ⟨ps, hps, hout⟩ := ih'
          exact ⟨ps, by rwa [hfilter], hout⟩
        · cases hinv with
          | inl h =>
            exact Or.inl ⟨by rw [getKey_setKey_ne _ _ _ _ (fun he => ht he.symm)]; exact h.1,
              by rw [getKey_setKey_ne _ _ _ _ (fun he => ht he.symm)]; exact h.2⟩
          | inr h =>
            exact Or.inr ⟨by rw [getKey_setKey_ne _ _ _ _ (fun he => ht he.symm)]; exact h.1,
              by rw [getKey_setKey_ne _ _ _ _ (fun he => ht he.symm)]; exact h.2.1,
              h.2.2.1, h.2.2.2⟩
      | inr happ =>
        obtain ⟨xs, ys, hxs, hys, hrec⟩ := happ
        have ih' := ih _ _ _ hrec t vs ls ?_
        · obtain ⟨ps, hps, hout⟩ := ih'
          exact ⟨ps, by rwa [hfilter], hout⟩
        · cases hinv with
          | inl h =>
            exact Or.inl ⟨by rw [getKey_setKey_ne _ _ _ _ (fun he => ht he.symm)]; exact h.1,
              by rw [getKey_setKey_ne _ _ _ _ (fun he => ht he.symm)]; exact h.2⟩
          | inr h =>
            exact Or.inr ⟨by rw [getKey_setKey_ne _ _ _ _ (fun he => ht he.symm)]; exact h.1,
              by rw [getKey_setKey_ne _ _ _ _ (fun he => ht he.symm)]; exact h.2.1,
              h.2.2.1, h.2.2.2⟩

/-- Decomposition of a successful `convertBody` run into its block phase,
attribute phase, and the final position fields. -/
theorem convertBody_ok_decomp (c : Converter) (blocks : List Block)
    (attrs : List Attr) (r : SrcRange) (v : VObj) (l : LObj)
    (h : convertBody c (.mk blocks attrs r) = .ok (v, l)) :
    ∃ cfg lcfg cfg2 lcfg2,
      convertBlocks c blocks [] [] = .ok (cfg, lcfg) ∧
      convertAttrs c attrs cfg lcfg = .ok (cfg2, lcfg2) ∧
      v = cfg2 ∧
      l = setKey "endIndex" (.lint r.stop.column)
            (setKey "startIndex" (.lint r.start.column)
              (setKey "line" (.lint r.start.line) lcfg2)) := by
  rw [convertBody] at h
  cases hb : convertBlocks c blocks [] [] with
  | error e =>
    rw [hb] at h
    simp only [bodyBlocksCont] at h
    exact Except.noConfusion h
  | ok p =>
    cases p with
    | mk cfg lcfg =>
      rw [hb] at h
      simp only [bodyBlocksCont] at h
      cases ha : convertAttrs c attrs cfg lcfg with
      | error e =>
        rw [ha] at h
        simp only [bodyFinishCont] at h
        exact Except.noConfusion h
      | ok q =>
        cases q with
        | mk cfg2 lcfg2 =>
          rw [ha] at h
          simp only [bodyFinishCont] at h
          obtain ⟨h1, h2⟩ := Prod.mk.injEq .. ▸ Except.ok.inj h
          exact ⟨cfg, lcfg, cfg2, lcfg2, rfl, ha, h1.symm, h2.symm⟩

/-- The attribute names of a body. -/
def attrNames (attrs : List Attr) : List String :=
  attrs.map Attr.name

/-- One successful iteration of the attribute loop. -/
theorem convertAttrs_cons_ok (c : Converter) (a : Attr) (rest : List Attr)
    (cfg : VObj) (lcfg : LObj) (out : VObj × LObj)
    (h : convertAttrs c (a :: rest) cfg lcfg = .ok out) :
    ∃ v lv, convertExpression c a.expr = .ok (v, lv) ∧
      convertAttrs c rest (setKey a.name v cfg)
        (setKey a.name (annotateAttrLine a.nameRange lv) lcfg) = .ok out := by
  rw [convertAttrs] at h
  cases he : convertExpression c a.expr with
  | error e =>
    rw [he] at h
    simp only [attrExprCont] at h
    exact Except.noConfusion h
  | ok p =>
    cases p with
    | mk v lv =>
      rw [he] at h
      simp only [attrExprCont] at h
      exact ⟨v, lv, rfl, h⟩

/-- Keys the attribute loop never writes are left unchanged. -/
theorem convertAttrs_getKey_of_no_attr (c : Converter) (t : String) :
    ∀ (attrs : List Attr) (cfg : VObj) (lcfg : LObj) (out : VObj × LObj),
    convertAttrs c attrs cfg lcfg = .ok out →
    (∀ a ∈ attrs, a.name ≠ t) →
    getKey out.1 t = getKey cfg t ∧ getKey out.2 t = getKey lcfg t := by
  intro attrs
  induction attrs with
  | nil =>
    intro cfg lcfg out h _
    rw [convertAttrs] at h
    cases h
    exact ⟨rfl, rfl⟩
  | cons a rest ih =>
    intro cfg lcfg out h hne
    obtain ⟨v, lv, he, hrec⟩ := convertAttrs_cons_ok c a rest cfg lcfg out h
    have ha : a.name ≠ t := hne a (by simp)
    have hrest : ∀ b ∈ rest, b.name ≠ t := fun b hb => hne b (by simp [hb])
    have h2 := ih _ _ _ hrec hrest
    rwa [getKey_setKey_ne _ _ _ _ (Ne.symm ha),
      getKey_setKey_ne _ _ _ _ (Ne.symm ha)] at h2

/-- With unique attribute names, the attribute loop leaves each
attribute's converted value and annotated line entry under its name:
nothing processed later overwrites it. -/
theorem convertAttrs_getKey_of_attr (c : Converter) :
    ∀ (attrs : List Attr) (a : Attr) (cfg : VObj) (lcfg : LObj) (out : VObj × LObj),
    convertAttrs c attrs cfg lcfg = .ok out →
    a ∈ attrs → (attrNames attrs).Nodup →
    ∃ v lv, convertExpression c a.expr = .ok (v, lv) ∧
      getKey out.1 a.name = some v ∧
      getKey out.2 a.name = some (annotateAttrLine a.nameRange lv) := by
  intro attrs
  induction attrs with
  | nil =>
    intro a cfg lcfg out _ hmem _
    exact absurd hmem (by simp)
  | cons b rest ih =>
    intro a cfg lcfg out h hmem hnd
    obtain ⟨v, lv, he, hrec⟩ := convertAttrs_cons_ok c b rest cfg lcfg out h
    rw [attrNames, List.map_cons, List.nodup_cons] at hnd
    cases List.mem_cons.mp hmem with
    | inl hab =>
      subst hab
      have hrest : ∀ x ∈ rest, x.name ≠ a.name := by
        intro x hx he'
        exact hnd.1 (he' ▸ List.mem_map_of_mem Attr.name hx)
      have h2 := convertAttrs_getKey_of_no_attr c a.name rest _ _ _ hrec hrest
      refine ⟨v, lv, he, ?_, ?_⟩
      · rw [h2.1, getKey_setKey_self]
      · rw [h2.2, getKey_setKey_self]
    | inr har =>
      exact ih a _ _ _ hrec har hnd.2

/-! ### Concrete inputs used to exercise the claims -/

/-- A converter over an empty source buffer (no range extraction needed
by the inputs that use it). -/
def convW : Converter := ⟨[], ⟨false⟩⟩

/-- A small source range: line 1, columns 1-2. -/
def rngW : SrcRange := ⟨⟨1, 1, 0⟩, ⟨1, 2, 1⟩⟩

/-- An empty body. -/
def emptyBodyW : Body := .mk [] [] rngW

/-- The block `a \x7b\x7d`. -/
def blkAW : Block := .mk "a" [] emptyBodyW rngW

/-- The line map of the converted empty body. -/
def emptyLineW : LObj :=
  [("line", .lint 1), ("startIndex", .lint 1), ("endIndex", .lint 2)]

/-- The annotated line map `convertBlock` produces for `a \x7b\x7d`. -/
def blkALineW : LObj :=
  emptyLineW ++
    [("__key__startIndex", .lint 1), ("__key__endIndex", .lint 2), ("__key__line", .lint 1)]

theorem eval_emptyBody : convertBody convW emptyBodyW = .ok ([], emptyLineW) := by
  simp [convertBody, bodyBlocksCont, bodyFinishCont, convertBlocks, convertAttrs,
    setKey, emptyBodyW, rngW, emptyLineW]

theorem eval_blkA : convertBlock convW blkAW [] [] =
    .ok ([("a", .vobj [])], [("a", .lobj blkALineW)]) := by
  rw [convertBlock_fresh]
  simp only [blkAW, Block.btype, Block.labels, Block.body, Block.typeRange]
  rw [convertBlockAux_fresh_ok _ _ _ eval_emptyBody]
  simp [chainV, chainL, annotBlockLine, setKey, rngW, emptyLineW, blkALineW]

theorem blkAW_btype : blkAW.btype = "a" := rfl

theorem eval_blocksA1 : convertBlocks convW [blkAW] [] [] =
    .ok ([("a", .varrObj [.vobj []])], [("a", .larrObj [.lobj blkALineW])]) := by
  rw [convertBlocks, eval_blkA]
  simp [blocksStepCont, blocksExtractCont, blocksMergeCont, getKey, setKey,
    blkAW_btype, convertBlocks]

theorem eval_blocksA3 : convertBlocks convW [blkAW, blkAW, blkAW] [] [] =
    .ok ([("a", .varrObj [.vobj [], .vobj [], .vobj []])],
         [("a", .larrObj [.lobj blkALineW, .lobj blkALineW, .lobj blkALineW])]) := by
  simp [convertBlocks, eval_blkA, blocksStepCont, blocksExtractCont, blocksMergeCont,
    blocksAppendCont, getKey, setKey, blkAW_btype]

/-- The value and line trees of the body holding the single block
`a \x7b\x7d`. -/
theorem eval_bodyA1 : convertBody convW (.mk [blkAW] [] rngW) =
    .ok ([("a", .varrObj [.vobj []])],
         [("a", .larrObj [.lobj blkALineW]),
          ("line", .lint 1), ("startIndex", .lint 1), ("endIndex", .lint 2)]) := by
  rw [convertBody, eval_blocksA1]
  simp [bodyBlocksCont, convertAttrs, bodyFinishCont, setKey, getKey, rngW]

/-! ### C10 -/

/-- C10: after a successful `convertBlock` on freshly created empty maps,
the entries under the block's type name are a `jsonObj` and a `lineObj`
respectively, so the unchecked type assertions in `convertBody`'s block
loop (`bcfg[block.Type].(jsonObj)` and `blcfg[block.Type].(lineObj)`)
always succeed and never panic. -/
theorem convertBlock_typeEntry_isMap (c : Converter) (blk : Block)
    (bcfg : VObj) (blcfg : LObj)
    (h : convertBlock c blk [] [] = .ok (bcfg, blcfg)) :
    (∃ m, getKey bcfg blk.btype = some (.vobj m)) ∧
    (∃ lm, getKey blcfg blk.btype = some (.lobj lm)) := by
  rw [convertBlock_fresh] at h
  cases hbody : convertBody c blk.body with
  | error e =>
    rw [convertBlockAux_fresh_err _ _ _ hbody] at h
    exact Except.noConfusion h
  | ok p =>
    cases p with
    | mk value blcfg0 =>
      rw [convertBlockAux_fresh_ok _ _ _ hbody] at h
      injection h with hp
      injection hp with h1 h2
      subst h1
      subst h2
      constructor
      · refine ⟨chainVFields blk.labels value, ?_⟩
        simp [getKey, chainV_eq]
      · refine ⟨chainLFields blk.labels (annotBlockLine blk.typeRange blcfg0), ?_⟩
        simp [getKey, chainL_eq]

/-- Witness for C10 at the concrete block `a \x7b\x7d`. -/
theorem convertBlock_typeEntry_isMap_witness :
    convertBlock convW blkAW [] [] = .ok ([("a", .vobj [])], [("a", .lobj blkALineW)]) ∧
    ((∃ m, getKey [("a", VValue.vobj [])] blkAW.btype = some (.vobj m)) ∧
     (∃ lm, getKey [("a", LValue.lobj blkALineW)] blkAW.btype = some (.lobj lm))) :=
  ⟨eval_blkA, convertBlock_typeEntry_isMap convW blkAW _ _ eval_blkA⟩

/-! ### C1 -/

/-- C1 (amended): for same-named sibling blocks at one body level, the
block loop always wraps: the first occurrence of a type stores a
one-element sequence under the type key (never the bare converted body),
each further occurrence appends, so n sibling blocks of one type yield an
n-element sequence in syntactic order, and a type with no block gets no
entry. -/
theorem collisionMergeAlwaysWraps (c : Converter) (bs : List Block)
    (out : VObj × LObj) (hok : convertBlocks c bs [] [] = .ok out) (t : String) :
    (bs.filter (fun b => b.btype == t) = [] → getKey out.1 t = none) ∧
    (bs.filter (fun b => b.btype == t) ≠ [] →
      ∃ ps : List (VObj × LObj),
        List.Forall₂ (fun (b : Block) (p : VObj × LObj) =>
          blockValueObj c b = some p.1 ∧ blockLineObj c b = some p.2)
          (bs.filter (fun b => b.btype == t)) ps ∧
        getKey out.1 t = some (.varrObj (ps.map (fun p => VValue.vobj p.1))) ∧
        ps.length = (bs.filter (fun b => b.btype == t)).length) := by
  constructor
  · intro hfil
    have hne : ∀ b ∈ bs, b.btype ≠ t := by
      intro b hb he
      have hmem : b ∈ bs.filter (fun b => b.btype == t) :=
        List.mem_filter.mpr ⟨hb, by simp [he]⟩
      rw [hfil] at hmem
      exact absurd hmem (by simp)
    have h2 := convertBlocks_getKey_of_no_block c bs [] [] out.1 out.2 t
      (by rwa [show ((out.1, out.2) : VObj × LObj) = out from rfl]) hne
    rw [h2.1]
    rfl
  · intro hfil
    obtain ⟨ps, hps, hdisj⟩ := convertBlocks_char_aux c bs [] [] out hok t [] []
      (Or.inr ⟨rfl, rfl, rfl, rfl⟩)
    cases hdisj with
    | inl h =>
      exact ⟨ps, hps, by simpa using h.1, (List.Forall₂.length_eq hps).symm⟩
    | inr h =>
      rw [h.2.2.2] at hps
      exact absurd (List.forall₂_nil_right_iff.mp hps) hfil

/-- C1 counterexample: with exactly one sibling block `a \x7b\x7d` the
value tree's `a` entry is a one-element sequence holding the converted
body, not the bare (unwrapped) converted body the claim requires. -/
theorem collisionMergeBareCounterexample :
    convertBody convW (.mk [blkAW] [] rngW) =
      .ok ([("a", .varrObj [.vobj []])],
           [("a", .larrObj [.lobj blkALineW]),
            ("line", .lint 1), ("startIndex", .lint 1), ("endIndex", .lint 2)]) ∧
    getKey [("a", VValue.varrObj [VValue.vobj []])] "a" =
      some (.varrObj [.vobj []]) ∧
    some (VValue.varrObj [VValue.vobj []]) ≠ some (VValue.vobj []) :=
  ⟨eval_bodyA1, by simp [getKey], by simp⟩

/-- Witness for C1 (amended) at three sibling blocks `a \x7b\x7d`: the
`a` entry is a 3-element sequence, in syntactic order. -/
theorem collisionMergeAlwaysWraps_witness :
    convertBlocks convW [blkAW, blkAW, blkAW] [] [] =
      .ok ([("a", .varrObj [.vobj [], .vobj [], .vobj []])],
           [("a", .larrObj [.lobj blkALineW, .lobj blkALineW, .lobj blkALineW])]) ∧
    (([blkAW, blkAW, blkAW].filter (fun b => b.btype == "a") = [] →
       getKey (([("a", VValue.varrObj [VValue.vobj [], VValue.vobj [], VValue.vobj []])],
         [("a", LValue.larrObj [LValue.lobj blkALineW, LValue.lobj blkALineW,
            LValue.lobj blkALineW])]) : VObj × LObj).1 "a" = none) ∧
     ([blkAW, blkAW, blkAW].filter (fun b => b.btype == "a") ≠ [] →
       ∃ ps : List (VObj × LObj),
         List.Forall₂ (fun (b : Block) (p : VObj × LObj) =>
           blockValueObj convW b = some p.1 ∧ blockLineObj convW b = some p.2)
           ([blkAW, blkAW, blkAW].filter (fun b => b.btype == "a")) ps ∧
         getKey (([("a", VValue.varrObj [VValue.vobj [], VValue.vobj [], VValue.vobj []])],
           [("a", LValue.larrObj [LValue.lobj blkALineW, LValue.lobj blkALineW,
              LValue.lobj blkALineW])]) : VObj × LObj).1 "a" =
           some (.varrObj (ps.map (fun p => VValue.vobj p.1))) ∧
         ps.length = ([blkAW, blkAW, blkAW].filter (fun b => b.btype == "a")).length)) :=
  ⟨eval_blocksA3, collisionMergeAlwaysWraps convW [blkAW, blkAW, blkAW] _ eval_blocksA3 "a"⟩

/-! ### C2 -/

/-- C2 (amended): a block whose type name is followed by n ordered labels
converts to a chain of n nested objects keyed by the labels in order,
with the converted body at the last label's key — but at the body level
the type key holds a one-element sequence of that chain, not the chain
itself. -/
theorem labelNestingChain (c : Converter) (t : String) (ls : List String)
    (inner : Body) (tr r : SrcRange) (v : VObj) (l : LObj)
    (hok : convertBody c (.mk [.mk t ls inner tr] [] r) = .ok (v, l)) :
    ∃ bodyV bodyL, convertBody c inner = .ok (bodyV, bodyL) ∧
      getKey v t = some (.varrObj [chainV ls bodyV]) := by
  obtain ⟨cfg, lcfg, cfg2, lcfg2, hb, ha, hv, hl⟩ :=
    convertBody_ok_decomp c _ _ _ _ _ hok
  rw [convertAttrs] at ha
  cases ha
  obtain ⟨bc, lc, hbc, hlc, hcase⟩ :=
    convertBlocks_cons_ok c _ [] [] [] (cfg, lcfg) hb
  cases hbody : convertBody c inner with
  | error e =>
    simp only [blockValueObj, Block.body, hbody] at hbc
    exact Option.noConfusion hbc
  | ok p =>
    cases p with
    | mk bodyV bodyL =>
      simp only [blockValueObj, Block.body, Block.labels, hbody,
        Option.some.injEq] at hbc
      have hbc' : chainVFields ls bodyV = bc := hbc
      cases hcase with
      | inl hfresh =>
        obtain ⟨_, hrec⟩ := hfresh
        rw [convertBlocks] at hrec
        injection hrec with hp
        injection hp with h1 h2
        refine ⟨bodyV, bodyL, rfl, ?_⟩
        rw [hv, ← h1]
        rw [show (Block.mk t ls inner tr).btype = t from rfl]
        rw [setKey_nil]
        simp [getKey, ← hbc', chainV_eq]
      | inr happ =>
        obtain ⟨xs, ys, hxs, _, _⟩ := happ
        rw [getKey_nil] at hxs
        exact Option.noConfusion hxs

/-- The attribute `x = 1`. -/
def attrXW : Attr := ⟨"x", .literal (.num 1) rngW, rngW⟩

/-- The body `x = 1`. -/
def xBodyW : Body := .mk [] [attrXW] rngW

/-- The block `db "mysql" "primary" \x7b x = 1 \x7d`. -/
def dbBlkW : Block := .mk "db" ["mysql", "primary"] xBodyW rngW

/-- A body holding only the `db` block. -/
def dbBodyW : Body := .mk [dbBlkW] [] rngW

/-- The annotated positional record of the attribute `x = 1`. -/
def xRecW : List (String × Int) :=
  [("line", 1), ("startIndex", 1), ("endIndex", 2),
   ("__key__startIndex", 1), ("__key__endIndex", 2), ("__key__line", 1)]

/-- The converted value map of the body `x = 1`. -/
def xValW : VObj := [("x", .simple (.num 1))]

/-- The converted line map of the body `x = 1`. -/
def xLineW : LObj := ("x", .record xRecW) :: emptyLineW

theorem eval_xBody : convertBody convW xBodyW = .ok (xValW, xLineW) := by
  simp [convertBody, bodyBlocksCont, bodyFinishCont, convertBlocks, convertAttrs,
    attrExprCont, convertExpression, lineInfoOf, annotateAttrLine, Expr.rng,
    setKey, xBodyW, attrXW, rngW, xValW, xLineW, xRecW, emptyLineW, Attr.name,
    Attr.expr, Attr.nameRange]

/-- The innermost line map of the converted `db` block (body line map
plus the block's own `__key__*` fields). -/
def dbLineInnerW : LObj :=
  xLineW ++ [("__key__startIndex", .lint 1), ("__key__endIndex", .lint 2),
             ("__key__line", .lint 1)]

theorem eval_dbBlk : convertBlock convW dbBlkW [] [] =
    .ok ([("db", .vobj [("mysql", .vobj [("primary", .vobj xValW)])])],
         [("db", .lobj [("mysql", .lobj [("primary", .lobj dbLineInnerW)])])]) := by
  rw [convertBlock_fresh]
  simp only [dbBlkW, Block.btype, Block.labels, Block.body, Block.typeRange]
  rw [convertBlockAux_fresh_ok _ _ _ eval_xBody]
  simp [chainV, chainL, annotBlockLine, setKey, rngW, dbLineInnerW, xLineW, xRecW,
    emptyLineW]

theorem eval_dbBody : convertBody convW dbBodyW =
    .ok ([("db", .varrObj [.vobj [("mysql", .vobj [("primary", .vobj xValW)])]])],
         [("db", .larrObj [.lobj [("mysql", .lobj [("primary", .lobj dbLineInnerW)])]]),
          ("line", .lint 1), ("startIndex", .lint 1), ("endIndex", .lint 2)]) := by
  rw [show dbBodyW = Body.mk [dbBlkW] [] rngW from rfl, convertBody]
  rw [convertBlocks, eval_dbBlk]
  simp [blocksStepCont, blocksExtractCont, blocksMergeCont, getKey, setKey,
    show dbBlkW.btype = "db" from rfl, convertBlocks, bodyBlocksCont, convertAttrs,
    bodyFinishCont, rngW]

/-- C2 counterexample: the concrete block `db "mysql" "primary"
\x7b x = 1 \x7d` produces, under key `db`, a one-element sequence holding
the nested chain — not the nested object tree
`\x7b"db": \x7b"mysql": \x7b"primary": \x7b"x": 1\x7d\x7d\x7d\x7d` the
claim states. -/
theorem labelNestingCounterexample :
    convertBody convW dbBodyW =
      .ok ([("db", .varrObj [.vobj [("mysql", .vobj [("primary", .vobj xValW)])]])],
           [("db", .larrObj [.lobj [("mysql", .lobj [("primary", .lobj dbLineInnerW)])]]),
            ("line", .lint 1), ("startIndex", .lint 1), ("endIndex", .lint 2)]) ∧
    getKey [("db", VValue.varrObj [.vobj [("mysql", .vobj [("primary", .vobj xValW)])]])]
        "db" = some (.varrObj [.vobj [("mysql", .vobj [("primary", .vobj xValW)])]]) ∧
    getKey [("db", VValue.varrObj [.vobj [("mysql", .vobj [("primary", .vobj xValW)])]])]
        "db" ≠ some (.vobj [("mysql", .vobj [("primary", .vobj xValW)])]) :=
  ⟨eval_dbBody, by simp [getKey], by simp [getKey]⟩

/-- Witness for C2 (amended) at `db "mysql" "primary" \x7b x = 1 \x7d`. -/
theorem labelNestingChain_witness :
    convertBody convW (.mk [.mk "db" ["mysql", "primary"] xBodyW rngW] [] rngW) =
      .ok ([("db", .varrObj [.vobj [("mysql", .vobj [("primary", .vobj xValW)])]])],
           [("db", .larrObj [.lobj [("mysql", .lobj [("primary", .lobj dbLineInnerW)])]]),
            ("line", .lint 1), ("startIndex", .lint 1), ("endIndex", .lint 2)]) ∧
    (∃ bodyV bodyL, convertBody convW xBodyW = .ok (bodyV, bodyL) ∧
      getKey [("db", VValue.varrObj
          [.vobj [("mysql", .vobj [("primary", .vobj xValW)])]])] "db" =
        some (.varrObj [chainV ["mysql", "primary"] bodyV])) :=
  ⟨eval_dbBody, labelNestingChain convW "db" ["mysql", "primary"] xBodyW rngW rngW
    _ _ eval_dbBody⟩

/-! ### C3 -/

/-- C3 (amended): same-named sibling blocks never overwrite one another —
every one of them survives into the sequence under the type key — but an
attribute that resolves to the same key as a block at the same nesting
level silently replaces the block's entry: each attribute's converted
value is what the final value map holds under the attribute's name, and
block entries are only guaranteed to survive at keys no attribute uses. -/
theorem attrOverwritesBlockKey (c : Converter) (blocks : List Block)
    (attrs : List Attr) (r : SrcRange) (v : VObj) (l : LObj)
    (hok : convertBody c (.mk blocks attrs r) = .ok (v, l))
    (hnd : (attrNames attrs).Nodup) :
    (∀ a ∈ attrs, ∃ av alv, convertExpression c a.expr = .ok (av, alv) ∧
       getKey v a.name = some av) ∧
    (∀ t, (∀ a ∈ attrs, a.name ≠ t) →
      blocks.filter (fun b => b.btype == t) ≠ [] →
      ∃ ps : List (VObj × LObj),
        List.Forall₂ (fun (b : Block) (p : VObj × LObj) =>
          blockValueObj c b = some p.1 ∧ blockLineObj c b = some p.2)
          (blocks.filter (fun b => b.btype == t)) ps ∧
        getKey v t = some (.varrObj (ps.map (fun p => VValue.vobj p.1)))) := by
  obtain ⟨cfg, lcfg, cfg2, lcfg2, hb, ha, hv, hl⟩ :=
    convertBody_ok_decomp c _ _ _ _ _ hok
  subst hv
  constructor
  · intro a hmem
    obtain ⟨av, alv, he, h1, _⟩ :=
      convertAttrs_getKey_of_attr c attrs a cfg lcfg (v, lcfg2) ha hmem hnd
    exact ⟨av, alv, he, h1⟩
  · intro t hnattr hfil
    obtain ⟨ps, hps, hdisj⟩ := convertBlocks_char_aux c blocks [] [] (cfg, lcfg)
      hb t [] [] (Or.inr ⟨rfl, rfl, rfl, rfl⟩)
    have hpres := convertAttrs_getKey_of_no_attr c t attrs cfg lcfg
      (v, lcfg2) ha hnattr
    cases hdisj with
    | inl h =>
      refine ⟨ps, hps, ?_⟩
      rw [hpres.1]
      simpa using h.1
    | inr h =>
      rw [h.2.2.2] at hps
      exact absurd (List.forall₂_nil_right_iff.mp hps) hfil

/-- The attribute `a = 1` (same key as the block `a \x7b\x7d`). -/
def attrAW : Attr := ⟨"a", .literal (.num 1) rngW, rngW⟩

theorem eval_mixBody : convertBody convW (.mk [blkAW] [attrAW] rngW) =
    .ok ([("a", .simple (.num 1))],
         [("a", .record xRecW),
          ("line", .lint 1), ("startIndex", .lint 1), ("endIndex", .lint 2)]) := by
  rw [convertBody, convertBlocks, eval_blkA]
  simp [blocksStepCont, blocksExtractCont, blocksMergeCont, getKey, setKey,
    blkAW_btype, convertBlocks, bodyBlocksCont, convertAttrs, attrExprCont,
    convertExpression, lineInfoOf, annotateAttrLine, Expr.rng, bodyFinishCont,
    attrAW, rngW, xRecW]

/-- C3 counterexample: the body `a \x7b\x7d` followed by the attribute
`a = 1` — after the block phase the `a` entry holds the block's sequence,
yet the final value tree holds the attribute's value: the attribute
(processed second) silently overwrote the sibling block's entry. -/
theorem attrOverwriteCounterexample :
    convertBlocks convW [blkAW] [] [] =
      .ok ([("a", .varrObj [.vobj []])], [("a", .larrObj [.lobj blkALineW])]) ∧
    convertBody convW (.mk [blkAW] [attrAW] rngW) =
      .ok ([("a", .simple (.num 1))],
           [("a", .record xRecW),
            ("line", .lint 1), ("startIndex", .lint 1), ("endIndex", .lint 2)]) ∧
    getKey [("a", VValue.simple (.num 1))] "a" = some (.simple (.num 1)) ∧
    some (VValue.simple (.num 1)) ≠ some (VValue.varrObj [VValue.vobj []]) :=
  ⟨eval_blocksA1, eval_mixBody, by simp [getKey], by simp⟩

/-- The attribute `b = 2`. -/
def attrBW : Attr := ⟨"b", .literal (.num 2) rngW, rngW⟩

theorem eval_mix2Body : convertBody convW (.mk [blkAW] [attrBW] rngW) =
    .ok ([("a", .varrObj [.vobj []]), ("b", .simple (.num 2))],
         [("a", .larrObj [.lobj blkALineW]), ("b", .record xRecW),
          ("line", .lint 1), ("startIndex", .lint 1), ("endIndex", .lint 2)]) := by
  rw [convertBody, convertBlocks, eval_blkA]
  simp [blocksStepCont, blocksExtractCont, blocksMergeCont, getKey, setKey,
    blkAW_btype, convertBlocks, bodyBlocksCont, convertAttrs, attrExprCont,
    convertExpression, lineInfoOf, annotateAttrLine, Expr.rng, bodyFinishCont,
    attrBW, rngW, xRecW]

/-- Witness for C3 (amended) at the body `a \x7b\x7d; b = 2`. -/
theorem attrOverwritesBlockKey_witness :
    convertBody convW (.mk [blkAW] [attrBW] rngW) =
      .ok ([("a", .varrObj [.vobj []]), ("b", .simple (.num 2))],
           [("a", .larrObj [.lobj blkALineW]), ("b", .record xRecW),
            ("line", .lint 1), ("startIndex", .lint 1), ("endIndex", .lint 2)]) ∧
    (attrNames [attrBW]).Nodup ∧
    ((∀ a ∈ [attrBW], ∃ av alv, convertExpression convW a.expr = .ok (av, alv) ∧
        getKey [("a", VValue.varrObj [.vobj []]), ("b", VValue.simple (.num 2))]
          a.name = some av) ∧
     (∀ t, (∀ a ∈ [attrBW], a.name ≠ t) →
       [blkAW].filter (fun b => b.btype == t) ≠ [] →
       ∃ ps : List (VObj × LObj),
         List.Forall₂ (fun (b : Block) (p : VObj × LObj) =>
           blockValueObj convW b = some p.1 ∧ blockLineObj convW b = some p.2)
           ([blkAW].filter (fun b => b.btype == t)) ps ∧
         getKey [("a", VValue.varrObj [.vobj []]), ("b", VValue.simple (.num 2))] t =
           some (.varrObj (ps.map (fun p => VValue.vobj p.1))))) :=
  ⟨eval_mix2Body, by simp [attrNames, attrBW],
   attrOverwritesBlockKey convW [blkAW] [attrBW] rngW _ _ eval_mix2Body
     (by simp [attrNames, attrBW])⟩

/-! ### C8 -/

theorem listGetDDefault {α : Type} (d : α) :
    ∀ (l : List α) (n : Nat), l.length ≤ n → l.getD n d = d := by
  intro l
  induction l with
  | nil => intro n _; simp [List.getD]
  | cons a t ih =>
    intro n h
    cases n with
    | zero => simp at h
    | succ m =>
      simp only [List.length_cons, Nat.succ_le_succ_iff] at h
      simpa [List.getD] using ih m h

theorem listGetDDrop {α : Type} (d : α) :
    ∀ (l : List α) (m n : Nat), (l.drop m).getD n d = l.getD (m + n) d := by
  intro l
  induction l with
  | nil => intro m n; simp
  | cons a t ih =>
    intro m n
    cases m with
    | zero => simp
    | succ m' =>
      simp only [List.drop_succ_cons]
      rw [ih m' n]
      simp [List.getD]
      rw [show m' + 1 + n = (m' + n) + 1 from by omega]
      simp

theorem listTakeSucc {α : Type} (d : α) :
    ∀ (l : List α) (n : Nat), n < l.length → l.take (n + 1) = l.take n ++ [l.getD n d] := by
  intro l
  induction l with
  | nil => intro n h; simp at h
  | cons a t ih =>
    intro n h
    cases n with
    | zero => simp [List.getD]
    | succ m =>
      simp only [List.length_cons, Nat.succ_lt_succ_iff] at h
      simp only [List.take_succ_cons, List.cons_append, List.cons.injEq, true_and]
      rw [ih m h]
      simp [List.getD]

/-- C8: for a byte range with valid offsets, `rangeSource` returns
exactly the bytes from start to end, extended by one byte exactly when
the byte at position `end` exists and is `')'`; consequently the range of
a call expression `f(x)` yields `f(x)` with its trailing `')'` exactly
once, whether the upstream range excluded the paren (end = 4) or already
included it (end = 5). -/
theorem rangeSourceFixup :
    (∀ (bytes : List Char) (opts : ConvOptions) (r : SrcRange),
      r.start.byte ≤ r.stop.byte → r.stop.byte ≤ bytes.length →
      rangeSource ⟨bytes, opts⟩ r =
        ((bytes.drop r.start.byte).take (r.stop.byte - r.start.byte)).asString ++
          (if bytes.getD r.stop.byte ' ' = ')' then ")" else "")) ∧
    rangeSource ⟨"f(x)".toList, ⟨false⟩⟩ ⟨⟨1, 1, 0⟩, ⟨1, 5, 4⟩⟩ = "f(x)" ∧
    rangeSource ⟨"f(x)".toList, ⟨false⟩⟩ ⟨⟨1, 1, 0⟩, ⟨1, 6, 5⟩⟩ = "f(x)" := by
  refine ⟨?_, by decide, by decide⟩
  intro bytes opts r h1 h2
  by_cases hc : bytes.getD r.stop.byte ' ' = ')'
  · have hlt : r.stop.byte < bytes.length := by
      rcases Nat.lt_or_ge r.stop.byte bytes.length with h | h
      · exact h
      · rw [listGetDDefault ' ' bytes _ h] at hc
        exact absurd hc (by decide)
    unfold rangeSource
    rw [if_pos hc, if_pos hc]
    show (List.take (r.stop.byte + 1 - r.start.byte)
      (List.drop r.start.byte bytes)).asString = _
    rw [show r.stop.byte + 1 - r.start.byte = (r.stop.byte - r.start.byte) + 1
      from by omega]
    rw [listTakeSucc ' ' _ _ (by rw [List.length_drop]; omega)]
    rw [listGetDDrop]
    rw [show r.start.byte + (r.stop.byte - r.start.byte) = r.stop.byte
      from by omega]
    rw [hc]
    rfl
  · unfold rangeSource
    rw [if_neg hc, if_neg hc]
    have hemp : ∀ s : String, s ++ "" = s := fun s => by
      cases s
      exact congrArg String.mk (List.append_nil _)
    show (List.take (r.stop.byte - r.start.byte)
      (List.drop r.start.byte bytes)).asString = _
    rw [hemp]

/-- Witness for C8 at the `f(x)` source with the paren-excluding range. -/
theorem rangeSourceFixup_witness :
    ((0 : Nat) ≤ 4 ∧ (4 : Nat) ≤ "f(x)".toList.length) ∧
    rangeSource ⟨"f(x)".toList, ⟨false⟩⟩ ⟨⟨1, 1, 0⟩, ⟨1, 5, 4⟩⟩ =
      (("f(x)".toList.drop 0).take 4).asString ++
        (if "f(x)".toList.getD 4 ' ' = ')' then ")" else "") :=
  ⟨⟨by decide, by decide⟩,
   rangeSourceFixup.1 "f(x)".toList ⟨false⟩ ⟨⟨1, 1, 0⟩, ⟨1, 5, 4⟩⟩
     (by decide) (by decide)⟩

/-! ### C4 -/

/-- Converter for the conditional-template input: source text `v`. -/
def convC4 : Converter := ⟨"v".toList, ⟨false⟩⟩

/-- The condition `v` of the conditional template part. -/
def condC4 : Expr := .scopeTraversal ⟨⟨1, 1, 0⟩, ⟨1, 2, 1⟩⟩

/-- A true branch whose literal value has no string conversion. -/
def trueC4 : Expr := .literal (.listVal []) rngW

/-- The false branch `"b"`. -/
def falseC4 : Expr := .literal (.str "b") rngW

theorem eval_condSwallow :
    convertTemplateConditional convC4 condC4 trueC4 falseC4 = .ok "" := by
  rw [convertTemplateConditional]
  simp [convertStringPart, stringCoerce, trueC4]

/-- C4: a string-coercion failure inside the true branch of a
conditional being reconstructed does *not* fail the conversion.
`convertStringPart` on the branch expression reports the
value-conversion error, but `convertTemplateConditional` answers that
error with `return "", nil`, so the enclosing template converts
successfully to the empty string and no error reaches the caller —
against the claim (and the spec's stated propagation policy, which the
spec's own design notes flag as a latent defect of the source). -/
theorem conditionalErrorSwallowed :
    convertStringPart convC4 trueC4 = .error (.err "convert value to string") ∧
    convertExpression convC4
        (.template [.conditional condC4 trueC4 falseC4 rngW] rngW) =
      .ok (.vstr "", .record [("line", 1), ("startIndex", 1), ("endIndex", 2)]) := by
  constructor
  · simp [convertStringPart, stringCoerce, trueC4]
  · rw [convertExpression]
    simp [convertTemplate, isStringLiteral, convertTemplateParts, templatePartCont,
      convertStringPart, eval_condSwallow, partsAppendCont, templateValueCont,
      lineInfoOf, Expr.rng, rngW]

/-! ### C6 -/

/-- Whether an expression is an object constructor. -/
def Expr.isObjectCons : Expr → Bool
  | .objectCons _ _ => true
  | _ => false

/-- Whether an expression is a template-wrap. -/
def Expr.isTemplateWrap : Expr → Bool
  | .templateWrap _ _ => true
  | _ => false

/-- C6 (amended): `convertExpression` returns the positional record built
from the expression's own start range — `line` from the start line,
`startIndex` from the start column, `endIndex` from the range's end
column — in every dispatch case except object construction (which
returns the map of per-key line nodes instead) and template-wrap (which
returns the wrapped expression's line node). -/
theorem lineNodeUniform (c : Converter) (e : Expr) (v : VValue) (l : LValue)
    (h1 : e.isObjectCons = false) (h2 : e.isTemplateWrap = false)
    (hok : convertExpression c e = .ok (v, l)) :
    l = .record [("line", e.rng.start.line), ("startIndex", e.rng.start.column),
                 ("endIndex", e.rng.stop.column)] := by
  cases e with
  | objectCons items rng => simp [Expr.isObjectCons] at h1
  | templateWrap w rng => simp [Expr.isTemplateWrap] at h2
  | template parts rng =>
    rw [convertExpression] at hok
    cases ht : convertTemplate c parts with
    | error e' =>
      rw [ht] at hok
      simp only [templateValueCont] at hok
      exact Except.noConfusion hok
    | ok s =>
      rw [ht] at hok
      simp only [templateValueCont] at hok
      injection hok with hp
      injection hp with _ hl
      rw [← hl]
      simp [lineInfoOf, Expr.rng]
  | tuple exprs rng =>
    rw [convertExpression] at hok
    cases ht : convertTupleElems c exprs with
    | error e' =>
      rw [ht] at hok
      simp only [tupleValueCont] at hok
      exact Except.noConfusion hok
    | ok list =>
      rw [ht] at hok
      simp only [tupleValueCont] at hok
      injection hok with hp
      injection hp with _ hl
      rw [← hl]
      simp [lineInfoOf, Expr.rng]
  | literal val rng =>
    rw [convertExpression] at hok
    injection hok with hp
    injection hp with _ hl
    rw [← hl]
    simp [lineInfoOf, Expr.rng]
  | objectConsKey w rng =>
    simp only [convertExpression] at hok
    injection hok with hp
    injection hp with _ hl
    rw [← hl]
    simp [lineInfoOf, Expr.rng]
  | scopeTraversal rng =>
    simp only [convertExpression] at hok
    injection hok with hp
    injection hp with _ hl
    rw [← hl]
    simp [lineInfoOf, Expr.rng]
  | conditional c1 c2 c3 rng =>
    simp only [convertExpression] at hok
    injection hok with hp
    injection hp with _ hl
    rw [← hl]
    simp [lineInfoOf, Expr.rng]
  | templateJoin tup rng =>
    simp only [convertExpression] at hok
    injection hok with hp
    injection hp with _ hl
    rw [← hl]
    simp [lineInfoOf, Expr.rng]
  | forE kv vv ce ve rng =>
    simp only [convertExpression] at hok
    injection hok with hp
    injection hp with _ hl
    rw [← hl]
    simp [lineInfoOf, Expr.rng]
  | otherExpr rng =>
    simp only [convertExpression] at hok
    injection hok with hp
    injection hp with _ hl
    rw [← hl]
    simp [lineInfoOf, Expr.rng]

/-- Converter for the object-key input: source text `k`. -/
def convC6 : Converter := ⟨"k".toList, ⟨false⟩⟩

/-- The object expression `\x7b k = 1 \x7d` with a bare scope-reference
key. -/
def objC6 : Expr :=
  .objectCons [(.objectConsKey (.scopeTraversal ⟨⟨1, 1, 0⟩, ⟨1, 2, 1⟩⟩)
    ⟨⟨1, 1, 0⟩, ⟨1, 2, 1⟩⟩, .literal (.num 1) rngW)] ⟨⟨1, 1, 0⟩, ⟨1, 8, 7⟩⟩

/-- The template-wrap of a literal at a different range. -/
def wrapC6 : Expr := .templateWrap (.literal (.str "s") ⟨⟨2, 3, 2⟩, ⟨2, 4, 3⟩⟩)
  ⟨⟨1, 1, 0⟩, ⟨1, 5, 4⟩⟩

/-- C6 counterexample: for an object-construction expression the
returned line node is the per-key line map, which is not the positional
record of the expression's own start range; for a template-wrap the
returned line node is the wrapped expression's record, carrying the
wrapped range, not the expression's own. -/
theorem lineNodeUniformCounterexample :
    convertExpression convC6 objC6 =
      .ok (.vobj [("k", .simple (.num 1))],
           .lobj [("k", .record [("line", 1), ("startIndex", 1), ("endIndex", 2)])]) ∧
    LValue.lobj [("k", .record [("line", 1), ("startIndex", 1), ("endIndex", 2)])] ≠
      .record [("line", 1), ("startIndex", 1), ("endIndex", 8)] ∧
    convertExpression convW wrapC6 =
      .ok (.simple (.str "s"), .record [("line", 2), ("startIndex", 3), ("endIndex", 4)]) ∧
    LValue.record [("line", 2), ("startIndex", 3), ("endIndex", 4)] ≠
      .record [("line", 1), ("startIndex", 1), ("endIndex", 5)] := by
  refine ⟨?_, by simp, ?_, by simp⟩
  · rw [show objC6 = Expr.objectCons [(.objectConsKey
        (.scopeTraversal ⟨⟨1, 1, 0⟩, ⟨1, 2, 1⟩⟩) ⟨⟨1, 1, 0⟩, ⟨1, 2, 1⟩⟩,
        .literal (.num 1) rngW)] ⟨⟨1, 1, 0⟩, ⟨1, 8, 7⟩⟩ from rfl]
    rw [convertExpression]
    simp [convertObjectItems, objectKeyCont, objectValCont, convertKey, rangeSource,
      convertExpression, objectValueCont, lineInfoOf, Expr.rng, setKey,
      rngW, convC6]
    rfl
  · rw [show wrapC6 = Expr.templateWrap (.literal (.str "s") ⟨⟨2, 3, 2⟩, ⟨2, 4, 3⟩⟩)
      ⟨⟨1, 1, 0⟩, ⟨1, 5, 4⟩⟩ from rfl]
    rw [convertExpression]
    rw [convertExpression]
    simp [lineInfoOf, Expr.rng]

/-- Witness for C6 (amended) at a literal expression. -/
theorem lineNodeUniform_witness :
    ((Expr.literal (.num 1) rngW).isObjectCons = false ∧
     (Expr.literal (.num 1) rngW).isTemplateWrap = false ∧
     convertExpression convW (.literal (.num 1) rngW) =
       .ok (.simple (.num 1), .record [("line", 1), ("startIndex", 1), ("endIndex", 2)])) ∧
    (LValue.record [("line", 1), ("startIndex", 1), ("endIndex", 2)] =
      .record [("line", (Expr.literal (.num 1) rngW).rng.start.line),
               ("startIndex", (Expr.literal (.num 1) rngW).rng.start.column),
               ("endIndex", (Expr.literal (.num 1) rngW).rng.stop.column)]) := by
  have heval : convertExpression convW (.literal (.num 1) rngW) =
      .ok (.simple (.num 1), .record [("line", 1), ("startIndex", 1), ("endIndex", 2)]) := by
    rw [convertExpression]
    simp [lineInfoOf, Expr.rng, rngW]
  exact ⟨⟨rfl, rfl, heval⟩, lineNodeUniform convW _ _ _ rfl rfl heval⟩

/-! ### C7 -/

theorem stringAppendEmpty (s : String) : s ++ "" = s := by
  cases s
  exact congrArg String.mk (List.append_nil _)

/-- Concatenation of a list of strings, in order (the builder of
`convertTemplate`). -/
def concatAll : List String → String
  | [] => ""
  | s :: t => s ++ concatAll t

theorem convertTemplateParts_all_literal (c : Converter) :
    ∀ (parts : List Expr) (ss : List String),
    List.Forall₂ (fun (p : Expr) (s : String) =>
      ∃ cv r, p = Expr.literal cv r ∧ stringCoerce cv = some s) parts ss →
    convertTemplateParts c parts = .ok (concatAll ss) := by
  intro parts ss h
  induction h with
  | nil => rw [convertTemplateParts]; rfl
  | cons hp hrest ih =>
    obtain ⟨cv, r, hp1, hp2⟩ := hp
    subst hp1
    rw [convertTemplateParts]
    rw [show convertStringPart c (.literal cv r) = .ok _ from by
      rw [convertStringPart, hp2]]
    simp only [templatePartCont]
    rw [ih]
    simp only [partsAppendCont, concatAll]

/-- Converter for the round-trip input: source text `var.x`. -/
def convC7 : Converter := ⟨"var.x".toList, ⟨false⟩⟩

/-- The non-constant part `var.x` of `"hello-$\x7bvar.x\x7d"`. -/
def varXC7 : Expr := .scopeTraversal ⟨⟨1, 8, 0⟩, ⟨1, 13, 5⟩⟩

/-- The template `"hello-$\x7bvar.x\x7d"`. -/
def helloC7 : Expr :=
  .template [.literal (.str "hello-") ⟨⟨1, 1, 0⟩, ⟨1, 7, 0⟩⟩, varXC7]
    ⟨⟨1, 1, 0⟩, ⟨1, 15, 14⟩⟩

/-- C7: a template all of whose parts are string-coercible literals is
converted to the evaluated plain string (the concatenation of the
coerced part values), both through the `IsStringLiteral` shortcut and the
part-wise builder; and the non-constant template
`"hello-$\x7bvar.x\x7d"` round-trips to the markup string reproducing
its source text, not evaluated. -/
theorem templateCollapseAndRoundTrip :
    (∀ (c : Converter) (parts : List Expr) (ss : List String),
      List.Forall₂ (fun (p : Expr) (s : String) =>
        ∃ cv r, p = Expr.literal cv r ∧ stringCoerce cv = some s) parts ss →
      convertTemplate c parts = .ok (concatAll ss)) ∧
    convertExpression convC7 helloC7 =
      .ok (.vstr "hello-$\x7bvar.x\x7d",
           .record [("line", 1), ("startIndex", 1), ("endIndex", 15)]) := by
  constructor
  · intro c parts ss h
    rw [convertTemplate]
    by_cases hsl : isStringLiteral parts
    · cases parts with
      | nil => simp [isStringLiteral] at hsl
      | cons p rest =>
        cases rest with
        | cons q t =>
          exact absurd hsl (by cases p <;> simp [isStringLiteral])
        | nil =>
          cases p with
          | literal cv r =>
            cases h with
            | cons hp hrest =>
              cases hrest
              obtain ⟨cv', r', hp1, hp2⟩ := hp
              injection hp1 with hcv hr
              subst hcv
              rw [if_pos hsl, templateLiteralValue, hp2]
              simp [concatAll, stringAppendEmpty]
          | template parts' r => simp [isStringLiteral] at hsl
          | templateWrap w r => simp [isStringLiteral] at hsl
          | tuple es r => simp [isStringLiteral] at hsl
          | objectCons items r => simp [isStringLiteral] at hsl
          | objectConsKey w r => simp [isStringLiteral] at hsl
          | scopeTraversal r => simp [isStringLiteral] at hsl
          | conditional a b c' r => simp [isStringLiteral] at hsl
          | templateJoin tup r => simp [isStringLiteral] at hsl
          | forE a b c' d r => simp [isStringLiteral] at hsl
          | otherExpr r => simp [isStringLiteral] at hsl
    · rw [if_neg hsl]
      exact convertTemplateParts_all_literal c parts ss h
  · rw [show helloC7 = Expr.template
      [.literal (.str "hello-") ⟨⟨1, 1, 0⟩, ⟨1, 7, 0⟩⟩, varXC7]
      ⟨⟨1, 1, 0⟩, ⟨1, 15, 14⟩⟩ from rfl]
    rw [convertExpression]
    simp only [convertTemplate, isStringLiteral, convertTemplateParts,
      templatePartCont, convertStringPart, stringCoerce, partsAppendCont,
      templateValueCont, lineInfoOf, Expr.rng]
    simp [varXC7, wrapExpr, rangeSource, Expr.rng, convC7, lineInfoOf,
      templateValueCont, convertTemplateParts, templatePartCont, convertStringPart,
      stringCoerce, partsAppendCont, isStringLiteral, convertTemplate]
    rfl

/-- Witness for C7's all-literal half at `"hello-$\x7b1\x7d"` (a literal
string part followed by a literal number part). -/
theorem templateCollapseAndRoundTrip_witness :
    List.Forall₂ (fun (p : Expr) (s : String) =>
      ∃ cv r, p = Expr.literal cv r ∧ stringCoerce cv = some s)
      [Expr.literal (.str "hello-") rngW, Expr.literal (.num 1) rngW]
      ["hello-", "1"] ∧
    convertTemplate convW [Expr.literal (.str "hello-") rngW,
      Expr.literal (.num 1) rngW] = .ok (concatAll ["hello-", "1"]) := by
  have hfa : List.Forall₂ (fun (p : Expr) (s : String) =>
      ∃ cv r, p = Expr.literal cv r ∧ stringCoerce cv = some s)
      [Expr.literal (.str "hello-") rngW, Expr.literal (.num 1) rngW]
      ["hello-", "1"] := by
    refine List.Forall₂.cons ⟨.str "hello-", rngW, rfl, rfl⟩
      (List.Forall₂.cons ⟨.num 1, rngW, rfl, ?_⟩ List.Forall₂.nil)
    rw [stringCoerce]
    rfl
  exact ⟨hfa, templateCollapseAndRoundTrip.1 convW _ _ hfa⟩

/-! ### C5 -/

/-- The positional-metadata keys the converter layers onto body line
maps. -/
def metaKeys : List String :=
  ["line", "startIndex", "endIndex", "__key__line", "__key__startIndex",
   "__key__endIndex"]

/-- Shape correspondence between a value node and its line node, as the
converter actually maintains it: scalars, plain strings and
tuple-expression sequences sit opposite a positional record; block-merge
sequences sit opposite line sequences of equal length, element-wise;
maps sit opposite maps that contain every value key, whose extra keys
are positional metadata only, with recursive correspondence at every
non-metadata key. -/
inductive VParity : VValue → LValue → Prop where
  | simple : ∀ (v : CtyValue) (fields : List (String × Int)),
      VParity (.simple v) (.record fields)
  | str : ∀ (s : String) (fields : List (String × Int)),
      VParity (.vstr s) (.record fields)
  | arr : ∀ (xs : List VValue) (fields : List (String × Int)),
      VParity (.varr xs) (.record fields)
  | seq : ∀ (vs : List VValue) (ls : List LValue),
      List.Forall₂ VParity vs ls → VParity (.varrObj vs) (.larrObj ls)
  | map : ∀ (m : VObj) (l : LObj),
      (∀ k v, getKey m k = some v → ∃ lv, getKey l k = some lv) →
      (∀ k lv, getKey l k = some lv → (∃ v, getKey m k = some v) ∨ k ∈ metaKeys) →
      (∀ k v lv, k ∉ metaKeys → getKey m k = some v → getKey l k = some lv →
        VParity v lv) →
      VParity (.vobj m) (.lobj l)

/-- Full lock-step correspondence of two maps (used for the loop
invariants, before the body's own metadata fields are added). -/
def FullParity (m : VObj) (l : LObj) : Prop :=
  (∀ k v, getKey m k = some v → ∃ lv, getKey l k = some lv) ∧
  (∀ k lv, getKey l k = some lv → ∃ v, getKey m k = some v) ∧
  (∀ k v lv, getKey m k = some v → getKey l k = some lv → VParity v lv)

theorem fullParity_nil : FullParity [] [] := by
  refine ⟨?_, ?_, ?_⟩
  · intro k v h
    simp [getKey] at h
  · intro k v h
    simp [getKey] at h
  · intro k v lv h _
    simp [getKey] at h

theorem fullParity_insert {m : VObj} {l : LObj} (h : FullParity m l)
    (k : String) {v : VValue} {lv : LValue} (hp : VParity v lv) :
    FullParity (setKey k v m) (setKey k lv l) := by
  obtain ⟨h1, h2, h3⟩ := h
  refine ⟨?_, ?_, ?_⟩
  · intro k' v' hg
    by_cases hk : k' = k
    · subst hk
      exact ⟨lv, getKey_setKey_self _ _ _⟩
    · rw [getKey_setKey_ne _ _ _ _ hk] at hg
      obtain ⟨lv', hlv'⟩ := h1 k' v' hg
      exact ⟨lv', by rw [getKey_setKey_ne _ _ _ _ hk]; exact hlv'⟩
  · intro k' lv' hg
    by_cases hk : k' = k
    · subst hk
      exact ⟨v, getKey_setKey_self _ _ _⟩
    · rw [getKey_setKey_ne _ _ _ _ hk] at hg
      obtain ⟨v', hv'⟩ := h2 k' lv' hg
      exact ⟨v', by rw [getKey_setKey_ne _ _ _ _ hk]; exact hv'⟩
  · intro k' v' lv' hgv hgl
    by_cases hk : k' = k
    · subst hk
      rw [getKey_setKey_self] at hgv hgl
      rw [← Option.some.inj hgv, ← Option.some.inj hgl]
      exact hp
    · rw [getKey_setKey_ne _ _ _ _ hk] at hgv hgl
      exact h3 k' v' lv' hgv hgl

/-- Weakening a full correspondence to the metadata-tolerant map
correspondence. -/
theorem vparity_of_fullParity {m : VObj} {l : LObj} (h : FullParity m l) :
    VParity (.vobj m) (.lobj l) := by
  obtain ⟨h1, h2, h3⟩ := h
  exact .map m l h1 (fun k lv hg => Or.inl (h2 k lv hg))
    (fun k v lv _ hgv hgl => h3 k v lv hgv hgl)

/-- Installing a bare metadata int on the line side preserves the map
correspondence. -/
theorem vparityMap_insertMeta {m : VObj} {l : LObj}
    (h : VParity (.vobj m) (.lobj l)) {mk : String} (hmk : mk ∈ metaKeys)
    (z : Int) : VParity (.vobj m) (.lobj (setKey mk (.lint z) l)) := by
  cases h with
  | map _ _ h1 h2 h3 =>
    refine .map m _ ?_ ?_ ?_
    · intro k v hg
      by_cases hk : k = mk
      · subst hk
        exact ⟨.lint z, getKey_setKey_self _ _ _⟩
      · obtain ⟨lv, hlv⟩ := h1 k v hg
        exact ⟨lv, by rw [getKey_setKey_ne _ _ _ _ hk]; exact hlv⟩
    · intro k lv hg
      by_cases hk : k = mk
      · subst hk
        exact Or.inr hmk
      · rw [getKey_setKey_ne _ _ _ _ hk] at hg
        exact h2 k lv hg
    · intro k v lv hkm hgv hgl
      have hk : k ≠ mk := fun he => hkm (he ▸ hmk)
      rw [getKey_setKey_ne _ _ _ _ hk] at hgl
      exact h3 k v lv hkm hgv hgl

/-- The `__key__*` annotation of a block's body line map preserves the
map correspondence. -/
theorem vparityMap_annotBlock {m : VObj} {l : LObj}
    (h : VParity (.vobj m) (.lobj l)) (tr : SrcRange) :
    VParity (.vobj m) (.lobj (annotBlockLine tr l)) := by
  rw [annotBlockLine]
  exact vparityMap_insertMeta
    (vparityMap_insertMeta (vparityMap_insertMeta h (by simp [metaKeys]) _)
      (by simp [metaKeys]) _) (by simp [metaKeys]) _

/-- The attribute `__key__*` annotation preserves correspondence: it only
rewrites a record into another record. -/
theorem vparity_annotate {v : VValue} {lv : LValue} (h : VParity v lv)
    (nameRange : SrcRange) : VParity v (annotateAttrLine nameRange lv) := by
  cases h with
  | simple cv fields => exact .simple cv _
  | str s fields => exact .str s _
  | arr xs fields => exact .arr xs _
  | seq vs ls hfa => exact .seq vs ls hfa
  | map m l h1 h2 h3 => exact .map m l h1 h2 h3

/-- The label chain preserves correspondence level by level. -/
theorem chainParity {bodyV : VObj} {bodyL : LObj}
    (h : VParity (.vobj bodyV) (.lobj bodyL)) :
    ∀ ls : List String, VParity (chainV ls bodyV) (chainL ls bodyL) := by
  intro ls
  induction ls with
  | nil => exact h
  | cons label rest ih =>
    rw [chainV, chainL]
    refine .map _ _ ?_ ?_ ?_
    · intro k v hg
      rw [getKey] at hg
      by_cases hk : label = k
      · subst hk
        exact ⟨chainL rest bodyL, by simp [getKey]⟩
      · rw [if_neg hk] at hg
        exact absurd hg (by simp [getKey])
    · intro k lv hg
      rw [getKey] at hg
      by_cases hk : label = k
      · subst hk
        refine Or.inl ⟨chainV rest bodyV, by simp [getKey]⟩
      · rw [if_neg hk] at hg
        exact absurd hg (by simp [getKey])
    · intro k v lv _ hgv hgl
      rw [getKey] at hgv hgl
      by_cases hk : label = k
      · rw [if_pos hk] at hgv hgl
        rw [← Option.some.inj hgv, ← Option.some.inj hgl]
        exact ih
      · rw [if_neg hk] at hgv
        exact absurd hgv (by simp [getKey])

/-- Every successful expression conversion produces a value/line pair in
shape correspondence. -/
theorem exprParityAux : ∀ (n : Nat) (e : Expr), sizeOf e ≤ n →
    ∀ (c : Converter) (v : VValue) (l : LValue),
    convertExpression c e = .ok (v, l) → VParity v l := by
  intro n
  induction n using Nat.strong_induction_on with
  | _ n ih =>
    intro e hsize c v l hok
    cases e with
    | literal cv rng =>
      rw [convertExpression] at hok
      injection hok with hp
      injection hp with h1 h2
      rw [← h1, ← h2]
      exact .simple cv _
    | template parts rng =>
      rw [convertExpression] at hok
      cases ht : convertTemplate c parts with
      | error e' =>
        rw [ht] at hok
        simp only [templateValueCont] at hok
        exact Except.noConfusion hok
      | ok s =>
        rw [ht] at hok
        simp only [templateValueCont] at hok
        injection hok with hp
        injection hp with h1 h2
        rw [← h1, ← h2]
        exact .str s _
    | templateWrap w rng =>
      rw [convertExpression] at hok
      have hsw : sizeOf w < sizeOf (Expr.templateWrap w rng) := by
        simp
        omega
      exact ih (sizeOf w) (lt_of_lt_of_le hsw hsize) w le_rfl c v l hok
    | tuple exprs rng =>
      rw [convertExpression] at hok
      cases ht : convertTupleElems c exprs with
      | error e' =>
        rw [ht] at hok
        simp only [tupleValueCont] at hok
        exact Except.noConfusion hok
      | ok list =>
        rw [ht] at hok
        simp only [tupleValueCont] at hok
        injection hok with hp
        injection hp with h1 h2
        rw [← h1, ← h2]
        exact .arr list _
    | objectCons items rng =>
      rw [convertExpression] at hok
      cases hi : convertObjectItems c items [] [] with
      | error e' =>
        rw [hi] at hok
        simp only [objectValueCont] at hok
        exact Except.noConfusion hok
      | ok p =>
        cases p with
        | mk m' l' =>
          rw [hi] at hok
          simp only [objectValueCont] at hok
          injection hok with hp
          injection hp with h1 h2
          rw [← h1, ← h2]
          have hitems : sizeOf items < sizeOf (Expr.objectCons items rng) := by
            simp
            omega
          have hloop : ∀ (items' : List (Expr × Expr)), sizeOf items' ≤ sizeOf items →
              ∀ (m0 : VObj) (l0 : LObj), FullParity m0 l0 →
              ∀ (m1 : VObj) (l1 : LObj),
              convertObjectItems c items' m0 l0 = .ok (m1, l1) →
              FullParity m1 l1 := by
            intro items'
            induction items' with
            | nil =>
              intro _ m0 l0 hf m1 l1 h
              rw [convertObjectItems] at h
              cases h
              exact hf
            | cons item rest ihit =>
              intro hsz m0 l0 hf m1 l1 h
              obtain ⟨keyExpr, valueExpr⟩ := item
              rw [convertObjectItems] at h
              cases hk : convertKey c keyExpr with
              | error e' =>
                rw [hk] at h
                simp only [objectKeyCont] at h
                exact Except.noConfusion h
              | ok key =>
                rw [hk] at h
                simp only [objectKeyCont] at h
                cases he : convertExpression c valueExpr with
                | error e' =>
                  rw [he] at h
                  simp only [objectValCont] at h
                  exact Except.noConfusion h
                | ok q =>
                  cases q with
                  | mk v2 lv2 =>
                    rw [he] at h
                    simp only [objectValCont] at h
                    have hsz2 : sizeOf valueExpr < n := by
                      have hc : sizeOf valueExpr <
                          sizeOf ((keyExpr, valueExpr) :: rest) := by
                        simp
                        omega
                      omega
                    have hp := ih (sizeOf valueExpr) hsz2 valueExpr le_rfl c v2 lv2 he
                    have hrest : sizeOf rest ≤ sizeOf items := by
                      have : sizeOf rest < sizeOf ((keyExpr, valueExpr) :: rest) := by
                        simp
                      omega
                    exact ihit hrest _ _ (fullParity_insert hf key hp) m1 l1 h
          exact vparity_of_fullParity
            (hloop items le_rfl [] [] fullParity_nil m' l' hi)
    | objectConsKey w rng =>
      simp only [convertExpression] at hok
      injection hok with hp
      injection hp with h1 h2
      rw [← h1, ← h2]
      exact .str _ _
    | scopeTraversal rng =>
      simp only [convertExpression] at hok
      injection hok with hp
      injection hp with h1 h2
      rw [← h1, ← h2]
      exact .str _ _
    | conditional c1 c2 c3 rng =>
      simp only [convertExpression] at hok
      injection hok with hp
      injection hp with h1 h2
      rw [← h1, ← h2]
      exact .str _ _
    | templateJoin tup rng =>
      simp only [convertExpression] at hok
      injection hok with hp
      injection hp with h1 h2
      rw [← h1, ← h2]
      exact .str _ _
    | forE kv vv ce ve rng =>
      simp only [convertExpression] at hok
      injection hok with hp
      injection hp with h1 h2
      rw [← h1, ← h2]
      exact .str _ _
    | otherExpr rng =>
      simp only [convertExpression] at hok
      injection hok with hp
      injection hp with h1 h2
      rw [← h1, ← h2]
      exact .str _ _

/-- Every successful body conversion produces value and line maps in
shape correspondence. -/
theorem bodyParityAux : ∀ (n : Nat) (b : Body), sizeOf b ≤ n →
    ∀ (c : Converter) (v : VObj) (l : LObj),
    convertBody c b = .ok (v, l) → VParity (.vobj v) (.lobj l) := by
  intro n
  induction n using Nat.strong_induction_on with
  | _ n ih =>
    intro b hsize c v l hok
    cases b with
    | mk blocks attrs srcRange =>
      obtain ⟨cfg, lcfg, cfg2, lcfg2, hb, ha, hv, hl⟩ :=
        convertBody_ok_decomp c _ _ _ _ _ hok
      subst hv
      have hblockpar : ∀ blk ∈ blocks, ∀ bc lc,
          blockValueObj c blk = some bc → blockLineObj c blk = some lc →
          VParity (.vobj bc) (.lobj lc) := by
        intro blk hmem bc lc hbc hlc
        cases hbody : convertBody c blk.body with
        | error e =>
          simp only [blockValueObj, hbody] at hbc
          exact Option.noConfusion hbc
        | ok p =>
          cases p with
          | mk bodyV bodyL =>
            simp only [blockValueObj, hbody, Option.some.injEq] at hbc
            simp only [blockLineObj, hbody, Option.some.injEq] at hlc
            have hsz : sizeOf blk.body < n := by
              have h1 : sizeOf blk < sizeOf blocks := List.sizeOf_lt_of_mem hmem
              have h2 : sizeOf blk.body < sizeOf blk := by
                cases blk
                simp [Block.body]
                omega
              have h3 : sizeOf blocks < sizeOf (Body.mk blocks attrs srcRange) := by
                simp
                omega
              omega
            have hinner := ih (sizeOf blk.body) hsz blk.body le_rfl c bodyV bodyL hbody
            have hannot := vparityMap_annotBlock hinner blk.typeRange
            have hchain := chainParity hannot blk.labels
            rw [chainV_eq, chainL_eq] at hchain
            rw [← hbc, ← hlc]
            exact hchain
      have hloop : ∀ (bs' : List Block),
          (∀ blk ∈ bs', ∀ bc lc, blockValueObj c blk = some bc →
            blockLineObj c blk = some lc → VParity (.vobj bc) (.lobj lc)) →
          ∀ (m0 : VObj) (l0 : LObj), FullParity m0 l0 →
          ∀ (out : VObj × LObj), convertBlocks c bs' m0 l0 = .ok out →
          FullParity out.1 out.2 := by
        intro bs'
        induction bs' with
        | nil =>
          intro _ m0 l0 hf out h
          rw [convertBlocks] at h
          cases h
          exact hf
        | cons blk rest ihb =>
          intro hpar m0 l0 hf out h
          obtain ⟨bc, lc, hbc, hlc, hcase⟩ :=
            convertBlocks_cons_ok c blk rest m0 l0 out h
          have hpblk := hpar blk (by simp) bc lc hbc hlc
          have hparrest : ∀ blk' ∈ rest, ∀ bc' lc',
              blockValueObj c blk' = some bc' → blockLineObj c blk' = some lc' →
              VParity (.vobj bc') (.lobj lc') :=
            fun blk' hm => hpar blk' (by simp [hm])
          cases hcase with
          | inl hfresh =>
            obtain ⟨hacc, hrec⟩ := hfresh
            refine ihb hparrest _ _ (fullParity_insert hf blk.btype ?_) out hrec
            exact .seq _ _ (List.Forall₂.cons hpblk List.Forall₂.nil)
          | inr happ =>
            obtain ⟨xs, ys, hxs, hys, hrec⟩ := happ
            have hexist := hf.2.2 blk.btype _ _ hxs hys
            have hfa : List.Forall₂ VParity xs ys := by
              cases hexist with
              | seq _ _ hfa => exact hfa
            refine ihb hparrest _ _ (fullParity_insert hf blk.btype ?_) out hrec
            exact .seq _ _
              (List.rel_append hfa (List.Forall₂.cons hpblk List.Forall₂.nil))
      have hfb := hloop blocks hblockpar [] [] fullParity_nil (cfg, lcfg) hb
      have hattrloop : ∀ (as' : List Attr) (m0 : VObj) (l0 : LObj),
          FullParity m0 l0 → ∀ (out : VObj × LObj),
          convertAttrs c as' m0 l0 = .ok out → FullParity out.1 out.2 := by
        intro as'
        induction as' with
        | nil =>
          intro m0 l0 hf out h
          rw [convertAttrs] at h
          cases h
          exact hf
        | cons a rest iha =>
          intro m0 l0 hf out h
          obtain ⟨v2, lv2, he, hrec⟩ := convertAttrs_cons_ok c a rest m0 l0 out h
          have hp := exprParityAux (sizeOf a.expr) a.expr le_rfl c v2 lv2 he
          exact iha _ _
            (fullParity_insert hf a.name (vparity_annotate hp a.nameRange)) out hrec
      have hfa2 := hattrloop attrs cfg lcfg hfb (v, lcfg2) ha
      subst hl
      exact vparityMap_insertMeta (vparityMap_insertMeta (vparityMap_insertMeta
        (vparity_of_fullParity hfa2) (by simp [metaKeys]) _)
        (by simp [metaKeys]) _) (by simp [metaKeys]) _

/-- C5 (amended): for every successfully converted body, value and line
trees correspond in shape, where the correspondence is the one the code
maintains: every key of a value map is present in the line map; line-map
keys beyond the value keys are positional metadata only; block-merge
sequences face line sequences of equal length element-wise; scalars and
strings face positional records; a tuple expression's sequence faces the
single positional record of the whole expression (element line info is
discarded); and correspondence recurses at every non-metadata key. -/
theorem shapeParity (c : Converter) (b : Body) (v : VObj) (l : LObj)
    (hok : convertBody c b = .ok (v, l)) : VParity (.vobj v) (.lobj l) :=
  bodyParityAux (sizeOf b) b le_rfl c v l hok

/-- Witness for C5 (amended) at the body `a \x7b\x7d`. -/
theorem shapeParity_witness :
    convertBody convW (.mk [blkAW] [] rngW) =
      .ok ([("a", .varrObj [.vobj []])],
           [("a", .larrObj [.lobj blkALineW]),
            ("line", .lint 1), ("startIndex", .lint 1), ("endIndex", .lint 2)]) ∧
    VParity (.vobj [("a", .varrObj [.vobj []])])
      (.lobj [("a", .larrObj [.lobj blkALineW]),
              ("line", .lint 1), ("startIndex", .lint 1), ("endIndex", .lint 2)]) :=
  ⟨eval_bodyA1, shapeParity convW _ _ _ eval_bodyA1⟩

/-- Whether a value node is a sequence. -/
def isVSeq : VValue → Bool
  | .varr _ => true
  | .varrObj _ => true
  | _ => false

/-- Whether a line node is a sequence. -/
def isLSeq : LValue → Bool
  | .larr _ => true
  | .larrObj _ => true
  | _ => false

/-- The attribute `t = [1, 2]`. -/
def attrTW : Attr :=
  ⟨"t", .tuple [.literal (.num 1) rngW, .literal (.num 2) rngW] rngW, rngW⟩

/-- C5 counterexample: for the attribute `t = [1, 2]` the value tree's
`t` key holds a 2-element sequence while the line tree's `t` key holds a
positional record — not a sequence of equal length as the claim
requires. -/
theorem shapeParityCounterexample :
    convertBody convW (.mk [] [attrTW] rngW) =
      .ok ([("t", .varr [.simple (.num 1), .simple (.num 2)])],
           [("t", .record xRecW),
            ("line", .lint 1), ("startIndex", .lint 1), ("endIndex", .lint 2)]) ∧
    getKey [("t", VValue.varr [.simple (.num 1), .simple (.num 2)])] "t" =
      some (.varr [.simple (.num 1), .simple (.num 2)]) ∧
    getKey [("t", LValue.record xRecW), ("line", LValue.lint 1),
        ("startIndex", LValue.lint 1), ("endIndex", LValue.lint 2)] "t" =
      some (.record xRecW) ∧
    isVSeq (.varr [.simple (.num 1), .simple (.num 2)]) = true ∧
    isLSeq (.record xRecW) = false := by
  refine ⟨?_, by simp [getKey], by simp [getKey], rfl, rfl⟩
  simp [convertBody, bodyBlocksCont, convertBlocks, convertAttrs, attrExprCont,
    convertExpression, tupleValueCont, convertTupleElems, tupleElemCont,
    tupleConsCont, lineInfoOf, annotateAttrLine, Expr.rng, setKey, bodyFinishCont,
    attrTW, rngW, xRecW, emptyLineW]

/-! ### C9: a total key order and the sorted rendering of maps

Go's `encoding/json` serializes a map with its keys in sorted order,
which is what makes the serialized trees independent of map iteration
order.  `keyLe` is a total order on strings (byte-wise comparison) and
`sortEntries` an insertion sort of map entries by key.
-/

/-- Byte-wise comparison of two character lists. -/
def charListLe : List Char → List Char → Bool
  | [], _ => true
  | _ :: _, [] => false
  | a :: as, b :: bs =>
    if a.toNat < b.toNat then true
    else if b.toNat < a.toNat then false
    else charListLe as bs

/-- Total order on map keys. -/
def keyLe (a b : String) : Bool :=
  charListLe a.toList b.toList

theorem charListLe_total : ∀ (a b : List Char),
    charListLe a b = true ∨ charListLe b a = true := by
  intro a
  induction a with
  | nil => intro b; exact Or.inl rfl
  | cons x as ih =>
    intro b
    cases b with
    | nil => exact Or.inr rfl
    | cons y bs =>
      rw [charListLe, charListLe]
      rcases Nat.lt_trichotomy x.toNat y.toNat with h | h | h
      · left
        simp [h]
      · rw [if_neg (by omega), if_neg (by omega), if_neg (by omega), if_neg (by omega)]
        exact ih bs
      · right
        simp [h]

theorem charListLe_antisymm : ∀ (a b : List Char),
    charListLe a b = true → charListLe b a = true → a = b := by
  intro a
  induction a with
  | nil =>
    intro b _ hba
    cases b with
    | nil => rfl
    | cons y bs => exact absurd hba (by rw [charListLe]; simp)
  | cons x as ih =>
    intro b hab hba
    cases b with
    | nil => exact absurd hab (by rw [charListLe]; simp)
    | cons y bs =>
      rw [charListLe] at hab hba
      rcases Nat.lt_trichotomy x.toNat y.toNat with h | h | h
      · rw [if_neg (by omega), if_pos h] at hba
        exact absurd hba (by simp)
      · rw [if_neg (by omega), if_neg (by omega)] at hab hba
        have hxy : x = y := by
          apply Char.ext
          apply UInt32.ext
          simpa [Char.toNat, UInt32.toNat] using h
        rw [hxy, ih bs hab hba]
      · rw [if_neg (by omega), if_pos h] at hab
        exact absurd hab (by simp)

theorem charListLe_trans : ∀ (a b c : List Char),
    charListLe a b = true → charListLe b c = true → charListLe a c = true := by
  intro a
  induction a with
  | nil => intro b c _ _; rfl
  | cons x as ih =>
    intro b c hab hbc
    cases b with
    | nil => exact absurd hab (by rw [charListLe]; simp)
    | cons y bs =>
      cases c with
      | nil => exact absurd hbc (by rw [charListLe]; simp)
      | cons z cs =>
        rw [charListLe] at hab hbc ⊢
        rcases Nat.lt_trichotomy x.toNat y.toNat with h1 | h1 | h1 <;>
          rcases Nat.lt_trichotomy y.toNat z.toNat with h2 | h2 | h2
        all_goals first
          | (rw [if_pos (by omega)])
          | (rw [if_neg (by omega), if_pos (by omega)] at hab
             exact absurd hab (by simp))
          | (rw [if_neg (by omega), if_pos (by omega)] at hbc
             exact absurd hbc (by simp))
          | (rw [if_neg (by omega), if_neg (by omega)] at hab hbc ⊢
             exact ih bs cs hab hbc)

theorem keyLe_total (a b : String) : keyLe a b = true ∨ keyLe b a = true :=
  charListLe_total a.toList b.toList

theorem keyLe_antisymm {a b : String} (h1 : keyLe a b = true)
    (h2 : keyLe b a = true) : a = b := by
  have h := charListLe_antisymm a.toList b.toList h1 h2
  cases a
  cases b
  exact congrArg String.mk (by simpa [String.toList] using h)

theorem keyLe_trans {a b c : String} (h1 : keyLe a b = true)
    (h2 : keyLe b c = true) : keyLe a c = true :=
  charListLe_trans a.toList b.toList c.toList h1 h2

/-- Insert one entry into a key-sorted entry list. -/
def insertEntry {α : Type} (p : String × α) : List (String × α) → List (String × α)
  | [] => [p]
  | q :: t => if keyLe p.1 q.1 then p :: q :: t else q :: insertEntry p t

/-- Insertion sort of map entries by key (the key order `encoding/json`
uses when serializing a map). -/
def sortEntries {α : Type} : List (String × α) → List (String × α)
  | [] => []
  | p :: t => insertEntry p (sortEntries t)

theorem insertEntry_perm {α : Type} (p : String × α) :
    ∀ (l : List (String × α)), (insertEntry p l).Perm (p :: l) := by
  intro l
  induction l with
  | nil => rw [insertEntry]
  | cons q t ih =>
    rw [insertEntry]
    by_cases h : keyLe p.1 q.1
    · rw [if_pos h]
    · rw [if_neg h]
      exact ((ih.cons q).trans (List.Perm.swap p q t))

theorem sortEntries_perm {α : Type} :
    ∀ (l : List (String × α)), (sortEntries l).Perm l := by
  intro l
  induction l with
  | nil => rfl
  | cons p t ih =>
    rw [sortEntries]
    exact (insertEntry_perm p (sortEntries t)).trans (ih.cons p)


theorem insertEntry_pairwise {α : Type} (p : String × α) (l : List (String × α))
    (h : List.Pairwise (fun x y : String × α => keyLe x.1 y.1 = true) l) :
    List.Pairwise (fun x y : String × α => keyLe x.1 y.1 = true) (insertEntry p l) := by
  induction l with
  | nil => simp [insertEntry]
  | cons q t ih =>
    rw [insertEntry]
    obtain ⟨hq, ht⟩ := List.pairwise_cons.mp h
    by_cases hle : keyLe p.1 q.1 = true
    · rw [if_pos hle]
      refine List.pairwise_cons.mpr ⟨?_, List.pairwise_cons.mpr ⟨hq, ht⟩⟩
      intro x hx
      rcases List.mem_cons.mp hx with rfl | hx
      · exact hle
      · exact keyLe_trans hle (hq x hx)
    · rw [if_neg hle]
      refine List.pairwise_cons.mpr ⟨?_, ih ht⟩
      intro x hx
      have hqp : keyLe q.1 p.1 = true := by
        rcases keyLe_total p.1 q.1 with h | h
        · exact absurd h hle
        · exact h
      rcases List.mem_cons.mp ((insertEntry_perm p t).mem_iff.mp hx) with rfl | hx
      · exact hqp
      · exact hq x hx

theorem sortEntries_pairwise {α : Type} :
    ∀ (l : List (String × α)),
      List.Pairwise (fun x y : String × α => keyLe x.1 y.1 = true) (sortEntries l) := by
  intro l
  induction l with
  | nil => simp [sortEntries]
  | cons p t ih =>
    rw [sortEntries]
    exact insertEntry_pairwise p (sortEntries t) ih

theorem pairwise_strict_of_nodup {α : Type} (l : List (String × α))
    (hs : List.Pairwise (fun x y : String × α => keyLe x.1 y.1 = true) l)
    (hn : (keysOf l).Nodup) :
    List.Pairwise (fun x y : String × α => keyLe x.1 y.1 = true ∧ x.1 ≠ y.1) l := by
  have hne : List.Pairwise (fun x y : String × α => x.1 ≠ y.1) l := by
    have h0 : List.Pairwise Ne (List.map Prod.fst l) := hn
    exact List.pairwise_map.mp h0
  exact List.pairwise_and_iff.mpr ⟨hs, hne⟩

/-- Strictly key-sorted entry lists that are permutations of one another
are equal. -/
theorem strictSortedPermEq {α : Type} :
    ∀ (a b : List (String × α)), a.Perm b →
      List.Pairwise (fun x y : String × α => keyLe x.1 y.1 = true ∧ x.1 ≠ y.1) a →
      List.Pairwise (fun x y : String × α => keyLe x.1 y.1 = true ∧ x.1 ≠ y.1) b →
      a = b := by
  intro a
  induction a with
  | nil =>
    intro b hp _ _
    exact hp.symm.eq_nil.symm
  | cons x t ih =>
    intro b hp h1 h2
    cases b with
    | nil => exact absurd hp.eq_nil (by simp)
    | cons y s =>
      have hxy : x = y := by
        have hx2 : x ∈ y :: s := hp.mem_iff.mp (List.mem_cons_self x t)
        have hy1 : y ∈ x :: t := hp.mem_iff.mpr (List.mem_cons_self y s)
        rcases List.mem_cons.mp hx2 with h | hxs
        · exact h
        rcases List.mem_cons.mp hy1 with h | hyt
        · exact h.symm
        have hlt1 := (List.pairwise_cons.mp h1).1 y hyt
        have hlt2 := (List.pairwise_cons.mp h2).1 x hxs
        exact absurd (keyLe_antisymm hlt1.1 hlt2.1) hlt1.2
      subst hxy
      rw [ih s hp.cons_inv (List.pairwise_cons.mp h1).2 (List.pairwise_cons.mp h2).2]

/-- Permuted maps with duplicate-free keys sort to the same entry list. -/
theorem sortEntries_eq_of_perm {α : Type} (a b : List (String × α))
    (hp : a.Perm b) (hn : (keysOf a).Nodup) :
    sortEntries a = sortEntries b := by
  have hp2 : (sortEntries a).Perm (sortEntries b) :=
    (sortEntries_perm a).trans (hp.trans (sortEntries_perm b).symm)
  have hna : (keysOf (sortEntries a)).Nodup :=
    (((sortEntries_perm a).map Prod.fst).nodup_iff).mpr hn
  have hnb : (keysOf (sortEntries b)).Nodup :=
    ((hp2.map Prod.fst).nodup_iff).mp hna
  exact strictSortedPermEq _ _ hp2
    (pairwise_strict_of_nodup _ (sortEntries_pairwise a) hna)
    (pairwise_strict_of_nodup _ (sortEntries_pairwise b) hnb)

/-! ### C9: JSON rendering of the two trees

`jmarshal`/`lmarshal` model `encoding/json.Marshal` on the value tree and
the line tree: maps render with their keys in sorted order, slices in
element order.  Escaping of special characters inside strings and Go's
float formatting are not modelled: the determinism claim compares two
runs of the same marshaller, so any injective-enough rendering of the
leaves suffices and the leaves here are rendered verbatim. -/

def jsonQuote (s : String) : String :=
  "\"" ++ s ++ "\""

theorem perm_sizeOf_eq {α : Type} [SizeOf α] {l₁ l₂ : List α}
    (h : l₁.Perm l₂) : sizeOf l₁ = sizeOf l₂ :=
  h.sizeOf_eq_sizeOf

mutual

def ctyMarshal : CtyValue → String
  | .str s => jsonQuote s
  | .num n => toString n
  | .bool b => if b then "true" else "false"
  | .null => "null"
  | .listVal vs => "[" ++ ctyMarshalList vs ++ "]"
termination_by v => (sizeOf v, 1)

def ctyMarshalList : List CtyValue → String
  | [] => ""
  | [v] => ctyMarshal v
  | v :: rest => ctyMarshal v ++ "," ++ ctyMarshalList rest
termination_by vs => (sizeOf vs, 0)

end

mutual

def jmarshal : VValue → String
  | .simple v => ctyMarshal v
  | .vstr s => jsonQuote s
  | .varr xs => "[" ++ jmarshalList xs ++ "]"
  | .varrObj xs => "[" ++ jmarshalList xs ++ "]"
  | .vobj fields => "\x7b" ++ jmarshalFields (sortEntries fields) ++ "\x7d"
termination_by v => (sizeOf v, 1)
decreasing_by
  · simp_wf
    omega
  · simp_wf
    omega
  · simp_wf
    have := perm_sizeOf_eq (sortEntries_perm fields)
    omega

def jmarshalList : List VValue → String
  | [] => ""
  | [v] => jmarshal v
  | v :: rest => jmarshal v ++ "," ++ jmarshalList rest
termination_by vs => (sizeOf vs, 0)
decreasing_by
  · simp_wf
    omega
  · simp_wf
    omega
  · simp_wf
    omega

def jmarshalFields : List (String × VValue) → String
  | [] => ""
  | [(k, v)] => jsonQuote k ++ ":" ++ jmarshal v
  | (k, v) :: rest => jsonQuote k ++ ":" ++ jmarshal v ++ "," ++ jmarshalFields rest
termination_by fs => (sizeOf fs, 0)
decreasing_by
  · simp_wf
    omega
  · simp_wf
    omega
  · simp_wf
    omega

end

def lmarshalRecord : List (String × Int) → String
  | [] => ""
  | [(k, n)] => jsonQuote k ++ ":" ++ toString n
  | (k, n) :: rest => jsonQuote k ++ ":" ++ toString n ++ "," ++ lmarshalRecord rest

mutual

def lmarshal : LValue → String
  | .lint n => toString n
  | .record fields => "\x7b" ++ lmarshalRecord (sortEntries fields) ++ "\x7d"
  | .larr xs => "[" ++ lmarshalList xs ++ "]"
  | .larrObj xs => "[" ++ lmarshalList xs ++ "]"
  | .lobj fields => "\x7b" ++ lmarshalFields (sortEntries fields) ++ "\x7d"
termination_by v => (sizeOf v, 1)
decreasing_by
  · simp_wf
    omega
  · simp_wf
    omega
  · simp_wf
    have := perm_sizeOf_eq (sortEntries_perm fields)
    omega

def lmarshalList : List LValue → String
  | [] => ""
  | [v] => lmarshal v
  | v :: rest => lmarshal v ++ "," ++ lmarshalList rest
termination_by vs => (sizeOf vs, 0)
decreasing_by
  · simp_wf
    omega
  · simp_wf
    omega
  · simp_wf
    omega

def lmarshalFields : List (String × LValue) → String
  | [] => ""
  | [(k, v)] => jsonQuote k ++ ":" ++ lmarshal v
  | (k, v) :: rest => jsonQuote k ++ ":" ++ lmarshal v ++ "," ++ lmarshalFields rest
termination_by fs => (sizeOf fs, 0)
decreasing_by
  · simp_wf
    omega
  · simp_wf
    omega
  · simp_wf
    omega

end

/-- Rendering a map ignores entry order when the keys are duplicate-free. -/
theorem jmarshal_vobj_perm {a b : VObj} (hp : a.Perm b)
    (hn : (keysOf a).Nodup) :
    jmarshal (.vobj a) = jmarshal (.vobj b) := by
  rw [jmarshal, jmarshal, sortEntries_eq_of_perm a b hp hn]

/-- Rendering a line map ignores entry order when the keys are
duplicate-free. -/
theorem lmarshal_lobj_perm {a b : LObj} (hp : a.Perm b)
    (hn : (keysOf a).Nodup) :
    lmarshal (.lobj a) = lmarshal (.lobj b) := by
  rw [lmarshal, lmarshal, sortEntries_eq_of_perm a b hp hn]

/-! ### C9: map updates and entry permutations

Go map iteration order is unspecified; the attribute loop of
`convertBody` visits the attributes in whatever order `range body.Attributes`
yields.  These lemmas show that the assignment `m[k] = v` interacts with
permutations of the backing entry list in the way the determinism claim
needs: updating two permuted duplicate-key-free maps yields permuted
maps, and two updates at distinct keys commute up to permutation. -/

theorem nodup_keysOf_setKey {α : Type} {k : String} (v : α)
    {m : List (String × α)} (h : (keysOf m).Nodup) :
    (keysOf (setKey k v m)).Nodup := by
  by_cases hk : k ∈ keysOf m
  · rw [keysOf_setKey_mem v hk]
    exact h
  · rw [keysOf_setKey_not_mem v hk]
    refine List.Nodup.append h (List.nodup_singleton k) ?_
    intro x hx hx'
    rw [List.mem_singleton] at hx'
    exact hk (hx' ▸ hx)

theorem setKey_congrPerm {α : Type} (k : String) (v : α)
    {m m' : List (String × α)} (hp : m.Perm m')
    (hn : (keysOf m).Nodup) :
    (setKey k v m).Perm (setKey k v m') := by
  induction hp with
  | nil => exact List.Perm.refl _
  | cons x h ih =>
    cases x with
    | mk xk xv =>
      rw [setKey, setKey]
      rw [keysOf_cons, List.nodup_cons] at hn
      by_cases hxk : xk = k
      · rw [if_pos hxk, if_pos hxk]
        exact h.cons (k, v)
      · rw [if_neg hxk, if_neg hxk]
        exact (ih hn.2).cons (xk, xv)
  | swap x y l =>
    cases x with
    | mk xk xv =>
      cases y with
      | mk yk yv =>
        rw [keysOf_cons, keysOf_cons, List.nodup_cons] at hn
        have hne : yk ≠ xk := fun h =>
          hn.1 (h ▸ List.mem_cons_self _ _)
        by_cases hyk : yk = k
        · have hxk : xk ≠ k := fun h => hne (by rw [hyk, h])
          simp only [setKey, if_pos hyk, if_neg hxk]
          exact List.Perm.swap (xk, xv) (k, v) l
        · by_cases hxk : xk = k
          · simp only [setKey, if_neg hyk, if_pos hxk]
            exact List.Perm.swap (k, v) (yk, yv) l
          · simp only [setKey, if_neg hyk, if_neg hxk]
            exact List.Perm.swap (xk, xv) (yk, yv) (setKey k v l)
  | trans h1 h2 ih1 ih2 =>
    exact (ih1 hn).trans (ih2 (((h1.map Prod.fst).nodup_iff).mp hn))

theorem setKey_swapComm {α : Type} {k k' : String} (v v' : α) (hne : k ≠ k') :
    ∀ (m : List (String × α)),
      (setKey k v (setKey k' v' m)).Perm (setKey k' v' (setKey k v m)) := by
  intro m
  induction m with
  | nil =>
    simp only [setKey, if_neg hne, if_neg (Ne.symm hne)]
    exact List.Perm.swap (k, v) (k', v') []
  | cons p t ih =>
    cases p with
    | mk pk pv =>
      by_cases hpk' : pk = k'
      · have hpk : pk ≠ k := fun h => hne (h ▸ hpk')
        simp only [setKey, if_pos hpk', if_neg hpk, if_neg (Ne.symm hne)]
        exact List.Perm.refl _
      · by_cases hpk : pk = k
        · simp only [setKey, if_neg hpk', if_pos hpk, if_neg hne]
          exact List.Perm.refl _
        · simp only [setKey, if_neg hpk', if_neg hpk]
          exact ih.cons (pk, pv)

/-! ### C9: the attribute loop as a pure fold

When every attribute expression converts successfully, the attribute
loop of `convertBody` is a pure left fold of `m[name] = value` updates
over the iteration order; `valOf`/`lineOf` read off each attribute's
converted value and annotated line entry. -/

/-- The converted value of an attribute whose expression converts. -/
def valOf (c : Converter) (a : Attr) : VValue :=
  match convertExpression c a.expr with
  | .ok (v, _) => v
  | .error _ => .vstr ""

/-- The annotated line entry of an attribute whose expression converts. -/
def lineOf (c : Converter) (a : Attr) : LValue :=
  match convertExpression c a.expr with
  | .ok (_, lv) => annotateAttrLine a.nameRange lv
  | .error _ => .record []

/-- The pure fold of keyed updates the attribute loop performs. -/
def applyEntries {α : Type} (f : Attr → α) : List Attr → List (String × α) → List (String × α)
  | [], m => m
  | a :: rest, m => applyEntries f rest (setKey a.name (f a) m)

theorem convertAttrs_eq_folds (c : Converter) :
    ∀ (attrs : List Attr) (cfg : VObj) (lcfg : LObj),
      (∀ a ∈ attrs, ∃ p, convertExpression c a.expr = .ok p) →
      convertAttrs c attrs cfg lcfg =
        .ok (applyEntries (valOf c) attrs cfg, applyEntries (lineOf c) attrs lcfg) := by
  intro attrs
  induction attrs with
  | nil =>
    intro cfg lcfg _
    rw [convertAttrs, applyEntries, applyEntries]
  | cons a rest ih =>
    intro cfg lcfg hall
    obtain ⟨p, he⟩ := hall a (List.mem_cons_self a rest)
    obtain ⟨v, lv⟩ := p
    have hv : valOf c a = v := by rw [valOf, he]
    have hl : lineOf c a = annotateAttrLine a.nameRange lv := by rw [lineOf, he]
    rw [convertAttrs, he, attrExprCont, applyEntries, applyEntries, hv, hl]
    exact ih _ _ (fun a' ha' => hall a' (List.mem_cons_of_mem a ha'))

theorem convertAttrs_ok_all (c : Converter) :
    ∀ (attrs : List Attr) (cfg : VObj) (lcfg : LObj) (out : VObj × LObj),
      convertAttrs c attrs cfg lcfg = .ok out →
      ∀ a ∈ attrs, ∃ p, convertExpression c a.expr = .ok p := by
  intro attrs
  induction attrs with
  | nil =>
    intro cfg lcfg out _ a ha
    exact absurd ha (List.not_mem_nil a)
  | cons a rest ih =>
    intro cfg lcfg out hok a' ha'
    obtain ⟨v, lv, he, hrest⟩ := convertAttrs_cons_ok c a rest cfg lcfg out hok
    rcases List.mem_cons.mp ha' with rfl | ha'
    · exact ⟨(v, lv), he⟩
    · exact ih _ _ _ hrest a' ha'

theorem applyEntries_nodup {α : Type} (f : Attr → α) :
    ∀ (l : List Attr) (m : List (String × α)),
      (keysOf m).Nodup → (keysOf (applyEntries f l m)).Nodup := by
  intro l
  induction l with
  | nil => intro m hm; exact hm
  | cons a rest ih =>
    intro m hm
    rw [applyEntries]
    exact ih _ (nodup_keysOf_setKey _ hm)

theorem applyEntries_congr {α : Type} (f : Attr → α) :
    ∀ (l : List Attr) (m m' : List (String × α)),
      m.Perm m' → (keysOf m).Nodup →
      (applyEntries f l m).Perm (applyEntries f l m') := by
  intro l
  induction l with
  | nil => intro m m' hp _; exact hp
  | cons a rest ih =>
    intro m m' hp hm
    rw [applyEntries, applyEntries]
    exact ih _ _ (setKey_congrPerm _ _ hp hm) (nodup_keysOf_setKey _ hm)

/-- Folding the keyed updates over two iteration orders of the same
attribute collection produces permuted entry lists. -/
theorem applyEntries_perm {α : Type} (f : Attr → α) {l₁ l₂ : List Attr}
    (hp : l₁.Perm l₂) :
    (attrNames l₁).Nodup → ∀ (m : List (String × α)), (keysOf m).Nodup →
      (applyEntries f l₁ m).Perm (applyEntries f l₂ m) := by
  induction hp with
  | nil =>
    intro _ m _
    exact List.Perm.refl _
  | cons a h ih =>
    intro hn m hm
    rw [applyEntries, applyEntries]
    have hn' : (attrNames _).Nodup := (List.nodup_cons.mp hn).2
    exact ih hn' _ (nodup_keysOf_setKey _ hm)
  | swap x y l =>
    intro hn m hm
    rw [applyEntries, applyEntries, applyEntries, applyEntries]
    have hne : y.name ≠ x.name := fun h =>
      (List.nodup_cons.mp hn).1 (h ▸ List.mem_cons_self _ _)
    have hacc : (setKey x.name (f x) (setKey y.name (f y) m)).Perm
        (setKey y.name (f y) (setKey x.name (f x) m)) :=
      setKey_swapComm (f x) (f y) (Ne.symm hne) m
    exact applyEntries_congr f l _ _ hacc
      (nodup_keysOf_setKey _ (nodup_keysOf_setKey _ hm))
  | trans h1 h2 ih1 ih2 =>
    intro hn m hm
    have hn2 : (attrNames _).Nodup := ((h1.map Attr.name).nodup_iff).mp hn
    exact (ih1 hn m hm).trans (ih2 hn2 m hm)

/-- The block loop preserves duplicate-free key lists in both maps. -/
theorem convertBlocks_nodupKeys (c : Converter) :
    ∀ (bs : List Block) (cfg : VObj) (lcfg : LObj) (out : VObj × LObj),
      convertBlocks c bs cfg lcfg = .ok out →
      (keysOf cfg).Nodup → (keysOf lcfg).Nodup →
      (keysOf out.1).Nodup ∧ (keysOf out.2).Nodup := by
  intro bs
  induction bs with
  | nil =>
    intro cfg lcfg out hok h1 h2
    rw [convertBlocks] at hok
    cases hok
    exact ⟨h1, h2⟩
  | cons blk rest ih =>
    intro cfg lcfg out hok h1 h2
    obtain ⟨bc, lc, _, _, hcase⟩ := convertBlocks_cons_ok c blk rest cfg lcfg out hok
    rcases hcase with ⟨_, hrest⟩ | ⟨xs, ys, _, _, hrest⟩
    · exact ih _ _ _ hrest (nodup_keysOf_setKey _ h1) (nodup_keysOf_setKey _ h2)
    · exact ih _ _ _ hrest (nodup_keysOf_setKey _ h1) (nodup_keysOf_setKey _ h2)

theorem eval_abBody : convertBody convW (.mk [] [attrAW, attrBW] rngW) =
    .ok ([("a", .simple (.num 1)), ("b", .simple (.num 2))],
         [("a", .record xRecW), ("b", .record xRecW),
          ("line", .lint 1), ("startIndex", .lint 1), ("endIndex", .lint 2)]) := by
  rw [convertBody, convertBlocks]
  simp [bodyBlocksCont, convertAttrs, attrExprCont, convertExpression,
    lineInfoOf, annotateAttrLine, Expr.rng, bodyFinishCont, setKey,
    attrAW, attrBW, rngW, xRecW]

theorem eval_baBody : convertBody convW (.mk [] [attrBW, attrAW] rngW) =
    .ok ([("b", .simple (.num 2)), ("a", .simple (.num 1))],
         [("b", .record xRecW), ("a", .record xRecW),
          ("line", .lint 1), ("startIndex", .lint 1), ("endIndex", .lint 2)]) := by
  rw [convertBody, convertBlocks]
  simp [bodyBlocksCont, convertAttrs, attrExprCont, convertExpression,
    lineInfoOf, annotateAttrLine, Expr.rng, bodyFinishCont, setKey,
    attrAW, attrBW, rngW, xRecW]


/-! ### C9 (deep): marshal-equivalence of value and line trees

Two runs of the conversion differ only in the iteration order of each
body's attribute map, at every nesting level.  The trees they produce
are related node-for-node: leaves are equal, slices correspond
element-wise, and maps hold the same duplicate-free key set with
equivalent values, in possibly different entry order.  `VEquiv` /
`LEquiv` capture exactly that relation; it implies equal JSON
serialization because `encoding/json` renders map keys sorted. -/

mutual

/-- Marshal-equivalence of two value nodes. -/
inductive VEquiv : VValue → VValue → Prop where
  | refl (v : VValue) : VEquiv v v
  | varr : VListEquiv xs ys → VEquiv (.varr xs) (.varr ys)
  | varrObj : VListEquiv xs ys → VEquiv (.varrObj xs) (.varrObj ys)
  | vobj : (keysOf f).Nodup → VFieldsEquiv f h → h.Perm g →
      VEquiv (.vobj f) (.vobj g)

/-- Element-wise `VEquiv` on slices. -/
inductive VListEquiv : List VValue → List VValue → Prop where
  | nil : VListEquiv [] []
  | cons : VEquiv x y → VListEquiv xs ys → VListEquiv (x :: xs) (y :: ys)

/-- Pointwise `VEquiv` on entry lists: same keys in the same positions,
equivalent values. -/
inductive VFieldsEquiv : List (String × VValue) → List (String × VValue) → Prop where
  | nil : VFieldsEquiv [] []
  | cons : VEquiv v w → VFieldsEquiv f h → VFieldsEquiv ((k, v) :: f) ((k, w) :: h)

end

mutual

/-- Marshal-equivalence of two line nodes. -/
inductive LEquiv : LValue → LValue → Prop where
  | refl (v : LValue) : LEquiv v v
  | larr : LListEquiv xs ys → LEquiv (.larr xs) (.larr ys)
  | larrObj : LListEquiv xs ys → LEquiv (.larrObj xs) (.larrObj ys)
  | lobj : (keysOf f).Nodup → LFieldsEquiv f h → h.Perm g →
      LEquiv (.lobj f) (.lobj g)

/-- Element-wise `LEquiv` on slices. -/
inductive LListEquiv : List LValue → List LValue → Prop where
  | nil : LListEquiv [] []
  | cons : LEquiv x y → LListEquiv xs ys → LListEquiv (x :: xs) (y :: ys)

/-- Pointwise `LEquiv` on entry lists. -/
inductive LFieldsEquiv : List (String × LValue) → List (String × LValue) → Prop where
  | nil : LFieldsEquiv [] []
  | cons : LEquiv v w → LFieldsEquiv f h → LFieldsEquiv ((k, v) :: f) ((k, w) :: h)

end

theorem vlistEquivRefl : ∀ (xs : List VValue), VListEquiv xs xs := by
  intro xs
  induction xs with
  | nil => exact .nil
  | cons x t ih => exact .cons (.refl x) ih

theorem vfieldsEquivRefl : ∀ (f : List (String × VValue)), VFieldsEquiv f f := by
  intro f
  induction f with
  | nil => exact .nil
  | cons p t ih =>
    cases p with
    | mk k v => exact .cons (.refl v) ih

theorem llistEquivRefl : ∀ (xs : List LValue), LListEquiv xs xs := by
  intro xs
  induction xs with
  | nil => exact .nil
  | cons x t ih => exact .cons (.refl x) ih

theorem lfieldsEquivRefl : ∀ (f : List (String × LValue)), LFieldsEquiv f f := by
  intro f
  induction f with
  | nil => exact .nil
  | cons p t ih =>
    cases p with
    | mk k v => exact .cons (.refl v) ih

theorem vfieldsEquiv_keys : ∀ {f h : List (String × VValue)},
    VFieldsEquiv f h → keysOf f = keysOf h := by
  intro f
  induction f with
  | nil =>
    intro h hfe
    cases hfe
    rfl
  | cons p t ih =>
    intro h hfe
    cases p with
    | mk k v =>
      cases hfe with
      | cons hv hrest => rw [keysOf_cons, keysOf_cons, ih hrest]

theorem lfieldsEquiv_keys : ∀ {f h : List (String × LValue)},
    LFieldsEquiv f h → keysOf f = keysOf h := by
  intro f
  induction f with
  | nil =>
    intro h hfe
    cases hfe
    rfl
  | cons p t ih =>
    intro h hfe
    cases p with
    | mk k v =>
      cases hfe with
      | cons hv hrest => rw [keysOf_cons, keysOf_cons, ih hrest]

theorem getKey_vfieldsEquiv_none {k : String} : ∀ {f h : List (String × VValue)},
    VFieldsEquiv f h → getKey f k = none → getKey h k = none := by
  intro f
  induction f with
  | nil =>
    intro h hfe _
    cases hfe
    rfl
  | cons p t ih =>
    intro h hfe hg
    cases p with
    | mk k' v =>
      cases hfe with
      | cons hv hrest =>
        by_cases hk : k' = k
        · rw [getKey, if_pos hk] at hg
          exact Option.noConfusion hg
        · rw [getKey, if_neg hk] at hg
          rw [getKey, if_neg hk]
          exact ih hrest hg

theorem getKey_vfieldsEquiv_some {k : String} {v : VValue} :
    ∀ {f h : List (String × VValue)},
    VFieldsEquiv f h → getKey f k = some v →
    ∃ w, getKey h k = some w ∧ VEquiv v w := by
  intro f
  induction f with
  | nil =>
    intro h hfe hg
    exact Option.noConfusion hg
  | cons p t ih =>
    intro h hfe hg
    cases p with
    | mk k' x =>
      cases hfe with
      | cons hv hrest =>
        by_cases hk : k' = k
        · rw [getKey, if_pos hk] at hg
          cases hg
          exact ⟨_, by rw [getKey, if_pos hk], hv⟩
        · rw [getKey, if_neg hk] at hg
          obtain ⟨w, hw, hvw⟩ := ih hrest hg
          exact ⟨w, by rw [getKey, if_neg hk]; exact hw, hvw⟩

theorem getKey_lfieldsEquiv_none {k : String} : ∀ {f h : List (String × LValue)},
    LFieldsEquiv f h → getKey f k = none → getKey h k = none := by
  intro f
  induction f with
  | nil =>
    intro h hfe _
    cases hfe
    rfl
  | cons p t ih =>
    intro h hfe hg
    cases p with
    | mk k' v =>
      cases hfe with
      | cons hv hrest =>
        by_cases hk : k' = k
        · rw [getKey, if_pos hk] at hg
          exact Option.noConfusion hg
        · rw [getKey, if_neg hk] at hg
          rw [getKey, if_neg hk]
          exact ih hrest hg

theorem getKey_lfieldsEquiv_some {k : String} {v : LValue} :
    ∀ {f h : List (String × LValue)},
    LFieldsEquiv f h → getKey f k = some v →
    ∃ w, getKey h k = some w ∧ LEquiv v w := by
  intro f
  induction f with
  | nil =>
    intro h hfe hg
    exact Option.noConfusion hg
  | cons p t ih =>
    intro h hfe hg
    cases p with
    | mk k' x =>
      cases hfe with
      | cons hv hrest =>
        by_cases hk : k' = k
        · rw [getKey, if_pos hk] at hg
          cases hg
          exact ⟨_, by rw [getKey, if_pos hk], hv⟩
        · rw [getKey, if_neg hk] at hg
          obtain ⟨w, hw, hvw⟩ := ih hrest hg
          exact ⟨w, by rw [getKey, if_neg hk]; exact hw, hvw⟩

theorem setKey_vfieldsEquiv {k : String} {v w : VValue} (hvw : VEquiv v w) :
    ∀ {f h : List (String × VValue)}, VFieldsEquiv f h →
    VFieldsEquiv (setKey k v f) (setKey k w h) := by
  intro f
  induction f with
  | nil =>
    intro h hfe
    cases hfe
    exact .cons hvw .nil
  | cons p t ih =>
    intro h hfe
    cases p with
    | mk k' x =>
      cases hfe with
      | cons hx hrest =>
        by_cases hk : k' = k
        · rw [setKey, if_pos hk, setKey, if_pos hk]
          exact .cons hvw hrest
        · rw [setKey, if_neg hk, setKey, if_neg hk]
          exact .cons hx (ih hrest)

theorem setKey_lfieldsEquiv {k : String} {v w : LValue} (hvw : LEquiv v w) :
    ∀ {f h : List (String × LValue)}, LFieldsEquiv f h →
    LFieldsEquiv (setKey k v f) (setKey k w h) := by
  intro f
  induction f with
  | nil =>
    intro h hfe
    cases hfe
    exact .cons hvw .nil
  | cons p t ih =>
    intro h hfe
    cases p with
    | mk k' x =>
      cases hfe with
      | cons hx hrest =>
        by_cases hk : k' = k
        · rw [setKey, if_pos hk, setKey, if_pos hk]
          exact .cons hvw hrest
        · rw [setKey, if_neg hk, setKey, if_neg hk]
          exact .cons hx (ih hrest)

theorem vlistEquiv_append {a b : VValue} (hab : VEquiv a b) :
    ∀ {xs ys : List VValue}, VListEquiv xs ys →
    VListEquiv (xs ++ [a]) (ys ++ [b]) := by
  intro xs
  induction xs with
  | nil =>
    intro ys hl
    cases hl
    exact .cons hab .nil
  | cons x t ih =>
    intro ys hl
    cases hl with
    | cons hx hrest => exact .cons hx (ih hrest)

theorem llistEquiv_append {a b : LValue} (hab : LEquiv a b) :
    ∀ {xs ys : List LValue}, LListEquiv xs ys →
    LListEquiv (xs ++ [a]) (ys ++ [b]) := by
  intro xs
  induction xs with
  | nil =>
    intro ys hl
    cases hl
    exact .cons hab .nil
  | cons x t ih =>
    intro ys hl
    cases hl with
    | cons hx hrest => exact .cons hx (ih hrest)

/-! ### C9 (deep): equivalent trees serialize identically -/

theorem insertEntry_forall₂ {α : Type} {R : (String × α) → (String × α) → Prop}
    (hkey : ∀ p q, R p q → p.1 = q.1) {p q : String × α} (hpq : R p q) :
    ∀ {l m : List (String × α)}, List.Forall₂ R l m →
    List.Forall₂ R (insertEntry p l) (insertEntry q m) := by
  intro l
  induction l with
  | nil =>
    intro m hl
    cases hl
    rw [insertEntry, insertEntry]
    exact .cons hpq .nil
  | cons x t ih =>
    intro m hl
    cases hl with
    | cons hx hrest =>
      rename_i y s
      rw [insertEntry, insertEntry]
      have hk1 : p.1 = q.1 := hkey _ _ hpq
      have hk2 : x.1 = y.1 := hkey _ _ hx
      by_cases hle : keyLe p.1 x.1 = true
      · rw [if_pos hle, if_pos (by rw [← hk1, ← hk2]; exact hle)]
        exact .cons hpq (.cons hx hrest)
      · rw [if_neg hle, if_neg (by rw [← hk1, ← hk2]; exact hle)]
        exact .cons hx (ih hrest)

theorem sortEntries_forall₂ {α : Type} {R : (String × α) → (String × α) → Prop}
    (hkey : ∀ p q, R p q → p.1 = q.1) :
    ∀ {l m : List (String × α)}, List.Forall₂ R l m →
    List.Forall₂ R (sortEntries l) (sortEntries m) := by
  intro l
  induction l with
  | nil =>
    intro m hl
    cases hl
    exact .nil
  | cons p t ih =>
    intro m hl
    cases hl with
    | cons hp hrest =>
      rw [sortEntries, sortEntries]
      exact insertEntry_forall₂ hkey hp (ih hrest)

theorem forall₂_entry_keys {α : Type} {R : (String × α) → (String × α) → Prop}
    (hkey : ∀ p q, R p q → p.1 = q.1) :
    ∀ {l m : List (String × α)}, List.Forall₂ R l m → keysOf l = keysOf m := by
  intro l
  induction l with
  | nil =>
    intro m hl
    cases hl
    rfl
  | cons p t ih =>
    intro m hl
    cases hl with
    | cons hp hrest =>
      rename_i y s
      rw [keysOf_cons, keysOf_cons, hkey _ _ hp, ih hrest]

theorem jmarshalList_congr :
    ∀ {xs ys : List VValue},
    List.Forall₂ (fun a b : VValue => jmarshal a = jmarshal b) xs ys →
    jmarshalList xs = jmarshalList ys := by
  intro xs
  induction xs with
  | nil =>
    intro ys hl
    cases hl
    rfl
  | cons x t ih =>
    intro ys hl
    cases hl with
    | cons hx hrest =>
      rename_i y s
      cases t with
      | nil =>
        cases hrest
        rw [jmarshalList, jmarshalList, hx]
      | cons w t' =>
        cases hrest with
        | cons hw hrest' =>
          rename_i z s'
          simp only [jmarshalList]
          rw [hx, ih (List.Forall₂.cons hw hrest')]

theorem jmarshalFields_congr :
    ∀ {f h : List (String × VValue)},
    List.Forall₂ (fun p q : String × VValue =>
      p.1 = q.1 ∧ jmarshal p.2 = jmarshal q.2) f h →
    jmarshalFields f = jmarshalFields h := by
  intro f
  induction f with
  | nil =>
    intro h hl
    cases hl
    rfl
  | cons p t ih =>
    intro h hl
    cases hl with
    | cons hp hrest =>
      rename_i q s
      cases p with
      | mk pk pv =>
        cases q with
        | mk qk qv =>
          obtain ⟨hk, hm⟩ := hp
          cases t with
          | nil =>
            cases hrest
            rw [jmarshalFields, jmarshalFields]
            rw [show pk = qk from hk, show jmarshal pv = jmarshal qv from hm]
          | cons w t' =>
            cases hrest with
            | cons hw hrest' =>
              rename_i z s'
              simp only [jmarshalFields]
              rw [show pk = qk from hk, show jmarshal pv = jmarshal qv from hm,
                ih (List.Forall₂.cons hw hrest')]

theorem lmarshalList_congr :
    ∀ {xs ys : List LValue},
    List.Forall₂ (fun a b : LValue => lmarshal a = lmarshal b) xs ys →
    lmarshalList xs = lmarshalList ys := by
  intro xs
  induction xs with
  | nil =>
    intro ys hl
    cases hl
    rfl
  | cons x t ih =>
    intro ys hl
    cases hl with
    | cons hx hrest =>
      rename_i y s
      cases t with
      | nil =>
        cases hrest
        rw [lmarshalList, lmarshalList, hx]
      | cons w t' =>
        cases hrest with
        | cons hw hrest' =>
          rename_i z s'
          simp only [lmarshalList]
          rw [hx, ih (List.Forall₂.cons hw hrest')]

theorem lmarshalFields_congr :
    ∀ {f h : List (String × LValue)},
    List.Forall₂ (fun p q : String × LValue =>
      p.1 = q.1 ∧ lmarshal p.2 = lmarshal q.2) f h →
    lmarshalFields f = lmarshalFields h := by
  intro f
  induction f with
  | nil =>
    intro h hl
    cases hl
    rfl
  | cons p t ih =>
    intro h hl
    cases hl with
    | cons hp hrest =>
      rename_i q s
      cases p with
      | mk pk pv =>
        cases q with
        | mk qk qv =>
          obtain ⟨hk, hm⟩ := hp
          cases t with
          | nil =>
            cases hrest
            rw [lmarshalFields, lmarshalFields]
            rw [show pk = qk from hk, show lmarshal pv = lmarshal qv from hm]
          | cons w t' =>
            cases hrest with
            | cons hw hrest' =>
              rename_i z s'
              simp only [lmarshalFields]
              rw [show pk = qk from hk, show lmarshal pv = lmarshal qv from hm,
                ih (List.Forall₂.cons hw hrest')]

theorem jmarshalEquivAux : ∀ (n : Nat) (a b : VValue), sizeOf a ≤ n →
    VEquiv a b → jmarshal a = jmarshal b := by
  intro n
  induction n using Nat.strong_induction_on with
  | _ n ih =>
    intro a b hsize heq
    cases heq with
    | refl v => rfl
    | varr hl =>
      rename_i xs ys
      rw [jmarshal, jmarshal]
      have hlist : ∀ (xs' ys' : List VValue), sizeOf xs' ≤ sizeOf xs →
          VListEquiv xs' ys' →
          List.Forall₂ (fun a b : VValue => jmarshal a = jmarshal b) xs' ys' := by
        intro xs'
        induction xs' with
        | nil =>
          intro ys' _ h
          cases h
          exact .nil
        | cons x t iht =>
          intro ys' hsz h
          cases h with
          | cons hx hrest =>
            have hszx : sizeOf x < n := by
              have h1 : sizeOf (VValue.varr xs) ≤ n := hsize
              simp at h1 hsz
              omega
            exact .cons (ih (sizeOf x) hszx x _ le_rfl hx)
              (iht _ (by simp at hsz; omega) hrest)
      rw [jmarshalList_congr (hlist xs ys le_rfl hl)]
    | varrObj hl =>
      rename_i xs ys
      rw [jmarshal, jmarshal]
      have hlist : ∀ (xs' ys' : List VValue), sizeOf xs' ≤ sizeOf xs →
          VListEquiv xs' ys' →
          List.Forall₂ (fun a b : VValue => jmarshal a = jmarshal b) xs' ys' := by
        intro xs'
        induction xs' with
        | nil =>
          intro ys' _ h
          cases h
          exact .nil
        | cons x t iht =>
          intro ys' hsz h
          cases h with
          | cons hx hrest =>
            have hszx : sizeOf x < n := by
              have h1 : sizeOf (VValue.varrObj xs) ≤ n := hsize
              simp at h1 hsz
              omega
            exact .cons (ih (sizeOf x) hszx x _ le_rfl hx)
              (iht _ (by simp at hsz; omega) hrest)
      rw [jmarshalList_congr (hlist xs ys le_rfl hl)]
    | vobj hnf hfe hperm =>
      rename_i f h g
      rw [jmarshal, jmarshal]
      have hFME : ∀ (f' h' : List (String × VValue)), sizeOf f' ≤ sizeOf f →
          VFieldsEquiv f' h' →
          List.Forall₂ (fun p q : String × VValue =>
            p.1 = q.1 ∧ jmarshal p.2 = jmarshal q.2) f' h' := by
        intro f'
        induction f' with
        | nil =>
          intro h' _ hfe'
          cases hfe'
          exact .nil
        | cons p t iht =>
          intro h' hsz hfe'
          cases p with
          | mk pk pv =>
            cases hfe' with
            | cons hv hrest =>
              have hszv : sizeOf pv < n := by
                have h1 : sizeOf (VValue.vobj f) ≤ n := hsize
                simp at h1 hsz
                omega
              exact .cons ⟨rfl, ih (sizeOf pv) hszv pv _ le_rfl hv⟩
                (iht _ (by simp at hsz; omega) hrest)
      have hfme := hFME f h le_rfl hfe
      have hkeys : keysOf f = keysOf h :=
        forall₂_entry_keys (fun p q hpq => hpq.1) hfme
      have hnh : (keysOf h).Nodup := hkeys ▸ hnf
      rw [jmarshalFields_congr (sortEntries_forall₂ (fun p q hpq => hpq.1) hfme),
        sortEntries_eq_of_perm h g hperm hnh]

theorem lmarshalEquivAux : ∀ (n : Nat) (a b : LValue), sizeOf a ≤ n →
    LEquiv a b → lmarshal a = lmarshal b := by
  intro n
  induction n using Nat.strong_induction_on with
  | _ n ih =>
    intro a b hsize heq
    cases heq with
    | refl v => rfl
    | larr hl =>
      rename_i xs ys
      rw [lmarshal, lmarshal]
      have hlist : ∀ (xs' ys' : List LValue), sizeOf xs' ≤ sizeOf xs →
          LListEquiv xs' ys' →
          List.Forall₂ (fun a b : LValue => lmarshal a = lmarshal b) xs' ys' := by
        intro xs'
        induction xs' with
        | nil =>
          intro ys' _ h
          cases h
          exact .nil
        | cons x t iht =>
          intro ys' hsz h
          cases h with
          | cons hx hrest =>
            have hszx : sizeOf x < n := by
              have h1 : sizeOf (LValue.larr xs) ≤ n := hsize
              simp at h1 hsz
              omega
            exact .cons (ih (sizeOf x) hszx x _ le_rfl hx)
              (iht _ (by simp at hsz; omega) hrest)
      rw [lmarshalList_congr (hlist xs ys le_rfl hl)]
    | larrObj hl =>
      rename_i xs ys
      rw [lmarshal, lmarshal]
      have hlist : ∀ (xs' ys' : List LValue), sizeOf xs' ≤ sizeOf xs →
          LListEquiv xs' ys' →
          List.Forall₂ (fun a b : LValue => lmarshal a = lmarshal b) xs' ys' := by
        intro xs'
        induction xs' with
        | nil =>
          intro ys' _ h
          cases h
          exact .nil
        | cons x t iht =>
          intro ys' hsz h
          cases h with
          | cons hx hrest =>
            have hszx : sizeOf x < n := by
              have h1 : sizeOf (LValue.larrObj xs) ≤ n := hsize
              simp at h1 hsz
              omega
            exact .cons (ih (sizeOf x) hszx x _ le_rfl hx)
              (iht _ (by simp at hsz; omega) hrest)
      rw [lmarshalList_congr (hlist xs ys le_rfl hl)]
    | lobj hnf hfe hperm =>
      rename_i f h g
      rw [lmarshal, lmarshal]
      have hFME : ∀ (f' h' : List (String × LValue)), sizeOf f' ≤ sizeOf f →
          LFieldsEquiv f' h' →
          List.Forall₂ (fun p q : String × LValue =>
            p.1 = q.1 ∧ lmarshal p.2 = lmarshal q.2) f' h' := by
        intro f'
        induction f' with
        | nil =>
          intro h' _ hfe'
          cases hfe'
          exact .nil
        | cons p t iht =>
          intro h' hsz hfe'
          cases p with
          | mk pk pv =>
            cases hfe' with
            | cons hv hrest =>
              have hszv : sizeOf pv < n := by
                have h1 : sizeOf (LValue.lobj f) ≤ n := hsize
                simp at h1 hsz
                omega
              exact .cons ⟨rfl, ih (sizeOf pv) hszv pv _ le_rfl hv⟩
                (iht _ (by simp at hsz; omega) hrest)
      have hfme := hFME f h le_rfl hfe
      have hkeys : keysOf f = keysOf h :=
        forall₂_entry_keys (fun p q hpq => hpq.1) hfme
      have hnh : (keysOf h).Nodup := hkeys ▸ hnf
      rw [lmarshalFields_congr (sortEntries_forall₂ (fun p q hpq => hpq.1) hfme),
        sortEntries_eq_of_perm h g hperm hnh]

/-- Marshal-equivalent value trees render to the same JSON bytes. -/
theorem jmarshalEquiv {a b : VValue} (h : VEquiv a b) : jmarshal a = jmarshal b :=
  jmarshalEquivAux (sizeOf a) a b le_rfl h

/-- Marshal-equivalent line trees render to the same JSON bytes. -/
theorem lmarshalEquiv {a b : LValue} (h : LEquiv a b) : lmarshal a = lmarshal b :=
  lmarshalEquivAux (sizeOf a) a b le_rfl h

/-! ### C9 (deep): two iteration orders of the same document

Go's `hclsyntax` parser yields the blocks of a body as an ordered slice
but the attributes as a `map[string]*Attribute`; two runs of the
conversion on the same source observe the same block order but possibly
different iteration orders of every body's attribute map.  `BodyEquiv`
relates two such views of one document: identical everywhere except
that each body's attribute list may be permuted, recursively through
nested blocks.  `BodyWellNamed` states the attribute names of every
body are duplicate-free, which the parser guarantees (a body cannot
declare the same attribute twice). -/

mutual

/-- Two views of one document body under different attribute-map
iteration orders. -/
inductive BodyEquiv : Body → Body → Prop where
  | mk : BlocksEquiv bs1 bs2 → attrs1.Perm attrs2 →
      BodyEquiv (.mk bs1 attrs1 r) (.mk bs2 attrs2 r)

/-- Element-wise `BodyEquiv` on block slices: same order, same type
names, labels and ranges, equivalent child bodies. -/
inductive BlocksEquiv : List Block → List Block → Prop where
  | nil : BlocksEquiv [] []
  | cons : BodyEquiv b1 b2 → BlocksEquiv rest1 rest2 →
      BlocksEquiv (.mk t ls b1 tr :: rest1) (.mk t ls b2 tr :: rest2)

end

mutual

/-- Duplicate-free attribute names at every nesting level. -/
inductive BodyWellNamed : Body → Prop where
  | mk : BlocksWellNamed bs → (attrNames attrs).Nodup →
      BodyWellNamed (.mk bs attrs r)

/-- `BodyWellNamed` for every block of a slice. -/
inductive BlocksWellNamed : List Block → Prop where
  | nil : BlocksWellNamed []
  | cons : BodyWellNamed blk.body → BlocksWellNamed rest →
      BlocksWellNamed (blk :: rest)

end

/-- The label chain preserves marshal-equivalence of the merged body
maps. -/
theorem chainV_equiv {m1 m2 : VObj} (h : VEquiv (.vobj m1) (.vobj m2)) :
    ∀ (ls : List String), VEquiv (chainV ls m1) (chainV ls m2) := by
  intro ls
  induction ls with
  | nil =>
    rw [chainV, chainV]
    exact h
  | cons l rest ih =>
    rw [chainV, chainV]
    exact .vobj (by simp [keysOf]) (.cons ih .nil) (List.Perm.refl _)

/-- Line-side chain lemma. -/
theorem chainL_equiv {m1 m2 : LObj} (h : LEquiv (.lobj m1) (.lobj m2)) :
    ∀ (ls : List String), LEquiv (chainL ls m1) (chainL ls m2) := by
  intro ls
  induction ls with
  | nil =>
    rw [chainL, chainL]
    exact h
  | cons l rest ih =>
    rw [chainL, chainL]
    exact .lobj (by simp [keysOf]) (.cons ih .nil) (List.Perm.refl _)

/-- The `__key__*` annotation preserves marshal-equivalence. -/
theorem annotBlockLine_equiv {m1 m2 : LObj} (tr : SrcRange)
    (h : LEquiv (.lobj m1) (.lobj m2)) :
    LEquiv (.lobj (annotBlockLine tr m1)) (.lobj (annotBlockLine tr m2)) := by
  cases h with
  | refl => exact .refl _
  | lobj hnf hfe hperm =>
    rename_i hmid
    rw [annotBlockLine, annotBlockLine]
    have hkeys : keysOf m1 = keysOf hmid := lfieldsEquiv_keys hfe
    have hnmid : (keysOf hmid).Nodup := hkeys ▸ hnf
    refine @LEquiv.lobj _
      (setKey "__key__line" (LValue.lint tr.start.line)
        (setKey "__key__endIndex" (LValue.lint tr.stop.column)
          (setKey "__key__startIndex" (LValue.lint tr.start.column) hmid))) _
      ?_ ?_ ?_
    · exact nodup_keysOf_setKey _ (nodup_keysOf_setKey _ (nodup_keysOf_setKey _ hnf))
    · exact setKey_lfieldsEquiv (.refl _) (setKey_lfieldsEquiv (.refl _)
        (setKey_lfieldsEquiv (.refl _) hfe))
    · exact setKey_congrPerm _ _ (setKey_congrPerm _ _
        (setKey_congrPerm _ _ hperm hnmid)
        (nodup_keysOf_setKey _ hnmid))
        (nodup_keysOf_setKey _ (nodup_keysOf_setKey _ hnmid))

/-- Inversion of the per-block chain maps: both are built from one
successful conversion of the block's body. -/
theorem blockObjs_some {c : Converter} {blk : Block} {bc : VObj} {lc : LObj}
    (h1 : blockValueObj c blk = some bc) (h2 : blockLineObj c blk = some lc) :
    ∃ value blcfg0, convertBody c blk.body = .ok (value, blcfg0) ∧
      bc = chainVFields blk.labels value ∧
      lc = chainLFields blk.labels (annotBlockLine blk.typeRange blcfg0) := by
  cases hb : convertBody c blk.body with
  | error e =>
    rw [blockValueObj, hb] at h1
    exact Option.noConfusion h1
  | ok p =>
    cases p with
    | mk value blcfg0 =>
      rw [blockValueObj, hb] at h1
      rw [blockLineObj, hb] at h2
      exact ⟨value, blcfg0, rfl, (Option.some.inj h1).symm, (Option.some.inj h2).symm⟩

theorem applyEntries_vfieldsEquiv (c : Converter) :
    ∀ (l : List Attr) {m m' : VObj}, VFieldsEquiv m m' →
    VFieldsEquiv (applyEntries (valOf c) l m) (applyEntries (valOf c) l m') := by
  intro l
  induction l with
  | nil =>
    intro m m' h
    exact h
  | cons a rest ih =>
    intro m m' h
    rw [applyEntries, applyEntries]
    exact ih (setKey_vfieldsEquiv (.refl _) h)

theorem applyEntries_lfieldsEquiv (c : Converter) :
    ∀ (l : List Attr) {m m' : LObj}, LFieldsEquiv m m' →
    LFieldsEquiv (applyEntries (lineOf c) l m) (applyEntries (lineOf c) l m') := by
  intro l
  induction l with
  | nil =>
    intro m m' h
    exact h
  | cons a rest ih =>
    intro m m' h
    rw [applyEntries, applyEntries]
    exact ih (setKey_lfieldsEquiv (.refl _) h)

theorem bodyEquivAux : ∀ (n : Nat) (b1 : Body), sizeOf b1 ≤ n →
    ∀ (c : Converter) (b2 : Body), BodyEquiv b1 b2 → BodyWellNamed b1 →
    ∀ (v1 : VObj) (l1 : LObj) (v2 : VObj) (l2 : LObj),
    convertBody c b1 = .ok (v1, l1) → convertBody c b2 = .ok (v2, l2) →
    VEquiv (.vobj v1) (.vobj v2) ∧ LEquiv (.lobj l1) (.lobj l2) := by
  intro n
  induction n using Nat.strong_induction_on with
  | _ n ih =>
    intro b1 hsize c b2 hequiv hwn v1 l1 v2 l2 hok1 hok2
    cases b1 with
    | mk blocks1 attrs1 r =>
      cases hequiv with
      | mk hbe hap =>
        rename_i bs2 attrs2
        cases hwn with
        | mk hbw han =>
          obtain ⟨cfg1, lcfg1, cfg21, lcfg21, hb1, ha1, hv1, hl1⟩ :=
            convertBody_ok_decomp c _ _ _ _ _ hok1
          obtain ⟨cfg2, lcfg2, cfg22, lcfg22, hb2, ha2, hv2, hl2⟩ :=
            convertBody_ok_decomp c _ _ _ _ _ hok2
          have hloop : ∀ (bs1' bs2' : List Block), BlocksEquiv bs1' bs2' →
              BlocksWellNamed bs1' →
              (∀ blk ∈ bs1', sizeOf blk.body < n) →
              ∀ (m1 : VObj) (g1 : LObj) (m2 : VObj) (g2 : LObj),
              VFieldsEquiv m1 m2 → LFieldsEquiv g1 g2 →
              ∀ (out1 out2 : VObj × LObj),
              convertBlocks c bs1' m1 g1 = .ok out1 →
              convertBlocks c bs2' m2 g2 = .ok out2 →
              VFieldsEquiv out1.1 out2.1 ∧ LFieldsEquiv out1.2 out2.2 := by
            intro bs1'
            induction bs1' with
            | nil =>
              intro bs2' hbe' _ _ m1 g1 m2 g2 hvm hlm out1 out2 h1 h2
              cases hbe'
              rw [convertBlocks] at h1 h2
              cases h1
              cases h2
              exact ⟨hvm, hlm⟩
            | cons blk1 rest1 ihb =>
              intro bs2' hbe' hwn' hsz' m1 g1 m2 g2 hvm hlm out1 out2 h1 h2
              cases blk1 with
              | mk t ls bb1 tr =>
                cases hbe' with
                | cons hbody hrest =>
                  rename_i bb2 rest2
                  obtain ⟨bc1, lc1, hbv1, hbl1, hcase1⟩ :=
                    convertBlocks_cons_ok c _ rest1 m1 g1 out1 h1
                  obtain ⟨bc2, lc2, hbv2, hbl2, hcase2⟩ :=
                    convertBlocks_cons_ok c _ rest2 m2 g2 out2 h2
                  obtain ⟨val1, bl1, hcb1, hbce1, hlce1⟩ := blockObjs_some hbv1 hbl1
                  obtain ⟨val2, bl2, hcb2, hbce2, hlce2⟩ := blockObjs_some hbv2 hbl2
                  simp only [Block.body, Block.labels, Block.typeRange] at hcb1 hbce1 hlce1 hcb2 hbce2 hlce2
                  simp only [Block.btype] at hcase1 hcase2
                  cases hwn' with
                  | cons hwnb hwnrest =>
                    have hwnb' : BodyWellNamed bb1 := hwnb
                    have hszb : sizeOf bb1 < n := by
                      have hm := hsz' _ (List.mem_cons_self _ _)
                      simpa [Block.body] using hm
                    have hrel := ih (sizeOf bb1) hszb bb1 le_rfl c bb2 hbody hwnb'
                      val1 bl1 val2 bl2 hcb1 hcb2
                    have hbcEq : VEquiv (.vobj bc1) (.vobj bc2) := by
                      rw [hbce1, hbce2, ← chainV_eq, ← chainV_eq]
                      exact chainV_equiv hrel.1 ls
                    have hlcEq : LEquiv (.lobj lc1) (.lobj lc2) := by
                      rw [hlce1, hlce2, ← chainL_eq, ← chainL_eq]
                      exact chainL_equiv (annotBlockLine_equiv tr hrel.2) ls
                    have hszrest : ∀ blk ∈ rest1, sizeOf blk.body < n :=
                      fun blk hm => hsz' blk (List.mem_cons_of_mem _ hm)
                    rcases hcase1 with ⟨hnone1, hrec1⟩ | ⟨xs1, ys1, hxs1, hys1, hrec1⟩
                    · rcases hcase2 with ⟨hnone2, hrec2⟩ | ⟨xs2, ys2, hxs2, hys2, hrec2⟩
                      · refine ihb rest2 hrest hwnrest hszrest _ _ _ _ ?_ ?_
                          out1 out2 hrec1 hrec2
                        · exact setKey_vfieldsEquiv (.varrObj (.cons hbcEq .nil)) hvm
                        · exact setKey_lfieldsEquiv (.larrObj (.cons hlcEq .nil)) hlm
                      · have hcontra := getKey_vfieldsEquiv_none hvm hnone1
                        rw [hcontra] at hxs2
                        exact Option.noConfusion hxs2
                    · rcases hcase2 with ⟨hnone2, hrec2⟩ | ⟨xs2, ys2, hxs2, hys2, hrec2⟩
                      · obtain ⟨w, hw, _⟩ := getKey_vfieldsEquiv_some hvm hxs1
                        rw [hnone2] at hw
                        exact Option.noConfusion hw
                      · obtain ⟨w, hw, hvw⟩ := getKey_vfieldsEquiv_some hvm hxs1
                        rw [hxs2] at hw
                        cases Option.some.inj hw
                        have hxseq : VListEquiv xs1 xs2 := by
                          cases hvw with
                          | refl => exact vlistEquivRefl xs1
                          | varrObj hxy => exact hxy
                        obtain ⟨w', hw', hvw'⟩ := getKey_lfieldsEquiv_some hlm hys1
                        rw [hys2] at hw'
                        cases Option.some.inj hw'
                        have hyseq : LListEquiv ys1 ys2 := by
                          cases hvw' with
                          | refl => exact llistEquivRefl ys1
                          | larrObj hxy => exact hxy
                        refine ihb rest2 hrest hwnrest hszrest _ _ _ _ ?_ ?_
                          out1 out2 hrec1 hrec2
                        · exact setKey_vfieldsEquiv
                            (.varrObj (vlistEquiv_append hbcEq hxseq)) hvm
                        · exact setKey_lfieldsEquiv
                            (.larrObj (llistEquiv_append hlcEq hyseq)) hlm
          have hszblocks : ∀ blk ∈ blocks1, sizeOf blk.body < n := by
            intro blk hm
            have h1 : sizeOf blk < sizeOf blocks1 := List.sizeOf_lt_of_mem hm
            have h2 : sizeOf blk.body < sizeOf blk := by
              cases blk
              simp [Block.body]
              omega
            have h3 : sizeOf blocks1 < sizeOf (Body.mk blocks1 attrs1 r) := by
              simp
              omega
            omega
          have hcfg := hloop blocks1 bs2 hbe hbw hszblocks [] [] [] [] .nil .nil
            (cfg1, lcfg1) (cfg2, lcfg2) hb1 hb2
          have hnk1 := convertBlocks_nodupKeys c blocks1 [] [] (cfg1, lcfg1) hb1
            List.nodup_nil List.nodup_nil
          have hnk2 := convertBlocks_nodupKeys c bs2 [] [] (cfg2, lcfg2) hb2
            List.nodup_nil List.nodup_nil
          have hall1 := convertAttrs_ok_all c attrs1 cfg1 lcfg1 _ ha1
          have hall2 := convertAttrs_ok_all c attrs2 cfg2 lcfg2 _ ha2
          have hf1 := convertAttrs_eq_folds c attrs1 cfg1 lcfg1 hall1
          have hf2 := convertAttrs_eq_folds c attrs2 cfg2 lcfg2 hall2
          cases Except.ok.inj (ha1.symm.trans hf1)
          cases Except.ok.inj (ha2.symm.trans hf2)
          constructor
          · rw [hv1, hv2]
            refine @VEquiv.vobj _ (applyEntries (valOf c) attrs1 cfg2) _ ?_ ?_ ?_
            · exact applyEntries_nodup _ _ _ hnk1.1
            · exact applyEntries_vfieldsEquiv c attrs1 hcfg.1
            · exact applyEntries_perm _ hap han cfg2 hnk2.1
          · rw [hl1, hl2]
            refine @LEquiv.lobj _
              (setKey "endIndex" (.lint r.stop.column)
                (setKey "startIndex" (.lint r.start.column)
                  (setKey "line" (.lint r.start.line)
                    (applyEntries (lineOf c) attrs1 lcfg2)))) _ ?_ ?_ ?_
            · exact nodup_keysOf_setKey _ (nodup_keysOf_setKey _
                (nodup_keysOf_setKey _ (applyEntries_nodup _ _ _ hnk1.2)))
            · exact setKey_lfieldsEquiv (.refl _) (setKey_lfieldsEquiv (.refl _)
                (setKey_lfieldsEquiv (.refl _)
                  (applyEntries_lfieldsEquiv c attrs1 hcfg.2)))
            · have hbase : (keysOf (applyEntries (lineOf c) attrs1 lcfg2)).Nodup :=
                applyEntries_nodup _ _ _ hnk2.2
              exact setKey_congrPerm _ _ (setKey_congrPerm _ _
                (setKey_congrPerm _ _ (applyEntries_perm _ hap han lcfg2 hnk2.2) hbase)
                (nodup_keysOf_setKey _ hbase))
                (nodup_keysOf_setKey _ (nodup_keysOf_setKey _ hbase))

/-- C9: determinism of the conversion.  The only unspecified order in the
conversion is Go's iteration over each body's attribute map
(`range body.Attributes` in `convertBody`), at every nesting level;
blocks are visited in syntactic slice order.  Two runs of the conversion
observe two `BodyEquiv`-related views of the same document (identical
except for each body's attribute iteration order); with the
duplicate-free attribute names a parsed body guarantees, two successful
runs produce value and line trees whose JSON serializations are
byte-identical — `encoding/json` renders map keys sorted, so entry
order in any of the backing maps is not observable. -/
theorem conversionDeterministic (c : Converter) (b1 b2 : Body)
    (hequiv : BodyEquiv b1 b2) (hwn : BodyWellNamed b1)
    (v1 : VObj) (l1 : LObj) (v2 : VObj) (l2 : LObj)
    (h1 : convertBody c b1 = .ok (v1, l1))
    (h2 : convertBody c b2 = .ok (v2, l2)) :
    jmarshal (.vobj v1) = jmarshal (.vobj v2) ∧
    lmarshal (.lobj l1) = lmarshal (.lobj l2) := by
  have h := bodyEquivAux (sizeOf b1) b1 le_rfl c b2 hequiv hwn v1 l1 v2 l2 h1 h2
  exact ⟨jmarshalEquiv h.1, lmarshalEquiv h.2⟩

/-- The body `a = 1; b = 2` in one attribute iteration order. -/
def abBodyW : Body := .mk [] [attrAW, attrBW] rngW

/-- The body `a = 1; b = 2` in the opposite iteration order. -/
def baBodyW : Body := .mk [] [attrBW, attrAW] rngW

/-- The block `blk \x7b a = 1; b = 2 \x7d`, first inner order. -/
def nestBlkABW : Block := .mk "blk" [] abBodyW rngW

/-- The same block with the opposite inner attribute order. -/
def nestBlkBAW : Block := .mk "blk" [] baBodyW rngW

/-- A document holding only the `blk` block, first inner order. -/
def nestBodyABW : Body := .mk [nestBlkABW] [] rngW

/-- The same document with the opposite nested attribute order. -/
def nestBodyBAW : Body := .mk [nestBlkBAW] [] rngW

/-- Converted value map of the inner body, first order. -/
def vABw : VObj := [("a", .simple (.num 1)), ("b", .simple (.num 2))]

/-- Converted value map of the inner body, opposite order. -/
def vBAw : VObj := [("b", .simple (.num 2)), ("a", .simple (.num 1))]

/-- Converted line map of the inner body, first order. -/
def lABw : LObj := [("a", .record xRecW), ("b", .record xRecW),
  ("line", .lint 1), ("startIndex", .lint 1), ("endIndex", .lint 2)]

/-- Converted line map of the inner body, opposite order. -/
def lBAw : LObj := [("b", .record xRecW), ("a", .record xRecW),
  ("line", .lint 1), ("startIndex", .lint 1), ("endIndex", .lint 2)]

/-- The inner line map with the block's `__key__*` annotation, first
order. -/
def annotABw : LObj := lABw ++ [("__key__startIndex", .lint 1),
  ("__key__endIndex", .lint 2), ("__key__line", .lint 1)]

/-- The inner line map with the block's `__key__*` annotation, opposite
order. -/
def annotBAw : LObj := lBAw ++ [("__key__startIndex", .lint 1),
  ("__key__endIndex", .lint 2), ("__key__line", .lint 1)]

theorem eval_nestBlkAB : convertBlock convW nestBlkABW [] [] =
    .ok ([("blk", .vobj vABw)], [("blk", .lobj annotABw)]) := by
  rw [convertBlock_fresh, show nestBlkABW.btype = "blk" from rfl,
    show nestBlkABW.labels = ([] : List String) from rfl,
    show nestBlkABW.body = abBodyW from rfl,
    show nestBlkABW.typeRange = rngW from rfl,
    convertBlockAux_fresh_ok "blk" [] rngW
      (show convertBody convW abBodyW = _ from eval_abBody)]
  simp [chainV, chainL, annotBlockLine, setKey, getKey, rngW,
    vABw, annotABw, lABw, xRecW]

theorem eval_nestBlkBA : convertBlock convW nestBlkBAW [] [] =
    .ok ([("blk", .vobj vBAw)], [("blk", .lobj annotBAw)]) := by
  rw [convertBlock_fresh, show nestBlkBAW.btype = "blk" from rfl,
    show nestBlkBAW.labels = ([] : List String) from rfl,
    show nestBlkBAW.body = baBodyW from rfl,
    show nestBlkBAW.typeRange = rngW from rfl,
    convertBlockAux_fresh_ok "blk" [] rngW
      (show convertBody convW baBodyW = _ from eval_baBody)]
  simp [chainV, chainL, annotBlockLine, setKey, getKey, rngW,
    vBAw, annotBAw, lBAw, xRecW]

theorem eval_nestAB : convertBody convW nestBodyABW =
    .ok ([("blk", .varrObj [.vobj vABw])],
         [("blk", .larrObj [.lobj annotABw]),
          ("line", .lint 1), ("startIndex", .lint 1), ("endIndex", .lint 2)]) := by
  rw [show nestBodyABW = Body.mk [nestBlkABW] [] rngW from rfl, convertBody,
    convertBlocks, eval_nestBlkAB]
  simp [blocksStepCont, blocksExtractCont, blocksMergeCont, getKey, setKey,
    show nestBlkABW.btype = "blk" from rfl, convertBlocks, bodyBlocksCont,
    convertAttrs, bodyFinishCont, rngW]

theorem eval_nestBA : convertBody convW nestBodyBAW =
    .ok ([("blk", .varrObj [.vobj vBAw])],
         [("blk", .larrObj [.lobj annotBAw]),
          ("line", .lint 1), ("startIndex", .lint 1), ("endIndex", .lint 2)]) := by
  rw [show nestBodyBAW = Body.mk [nestBlkBAW] [] rngW from rfl, convertBody,
    convertBlocks, eval_nestBlkBA]
  simp [blocksStepCont, blocksExtractCont, blocksMergeCont, getKey, setKey,
    show nestBlkBAW.btype = "blk" from rfl, convertBlocks, bodyBlocksCont,
    convertAttrs, bodyFinishCont, rngW]

/-- Witness for C9 at the two nested iteration orders of the document
`blk \x7b a = 1; b = 2 \x7d`: the attribute order differs inside the
block's body (not at top level), both runs succeed, and the serialized
trees are byte-identical. -/
theorem conversionDeterministic_witness :
    BodyEquiv nestBodyABW nestBodyBAW ∧ BodyWellNamed nestBodyABW ∧
    (jmarshal (.vobj [("blk", .varrObj [.vobj vABw])]) =
       jmarshal (.vobj [("blk", .varrObj [.vobj vBAw])]) ∧
     lmarshal (.lobj [("blk", .larrObj [.lobj annotABw]),
        ("line", .lint 1), ("startIndex", .lint 1), ("endIndex", .lint 2)]) =
       lmarshal (.lobj [("blk", .larrObj [.lobj annotBAw]),
        ("line", .lint 1), ("startIndex", .lint 1), ("endIndex", .lint 2)])) :=
  ⟨BodyEquiv.mk
      (BlocksEquiv.cons
        (BodyEquiv.mk BlocksEquiv.nil (List.Perm.swap attrBW attrAW []))
        BlocksEquiv.nil)
      (List.Perm.refl []),
   BodyWellNamed.mk
      (BlocksWellNamed.cons
        (BodyWellNamed.mk BlocksWellNamed.nil (by decide))
        BlocksWellNamed.nil)
      (by decide),
   conversionDeterministic convW nestBodyABW nestBodyBAW
     (BodyEquiv.mk
       (BlocksEquiv.cons
         (BodyEquiv.mk BlocksEquiv.nil (List.Perm.swap attrBW attrAW []))
         BlocksEquiv.nil)
       (List.Perm.refl []))
     (BodyWellNamed.mk
       (BlocksWellNamed.cons
         (BodyWellNamed.mk BlocksWellNamed.nil (by decide))
         BlocksWellNamed.nil)
       (by decide))
     _ _ _ _ eval_nestAB eval_nestBA⟩
